import Mathlib

/-!
# Verification of the `wordcount` C library (word-frequency-counter)

Shallow embedding of `src/wordcount.c` (current revision, the first copy in
the file).  The model targets the default 64-bit LP64 build:
`SIZE_MAX = 2^64 - 1`, `sizeof(Slot) = 32`, `sizeof(Block) = 24`,
`WC_ALIGN = 8`, `WC_DEFAULT_INIT_CAP = 4096`, `WC_DEFAULT_BLOCK_SZ = 65536`,
`WC_STACK_BUFFER = 1` (so the per-counter heap scan buffer is compiled out).
Machine integers (`size_t`, `unsigned long`) are modelled as `Nat` with the
overflow checks of the C code written out explicitly against `SIZE_MAX`;
the 32-bit mask `& 0xffffffff` is written `% 2^32`.  The heap (`WC_MALLOC`)
is modelled as infallible: the only allocation failures in the model are the
ones the library itself produces (budget, region, overflow, static table
full), which are the failure sources the specification describes.
Pointers are not modelled; a byte buffer is a `List Nat`, and the arena's
zero-initialisation together with `memcpy(copy, word, n)` makes a stored
key buffer `key ++ [0]`.
-/

namespace Wordcount

/-- `SIZE_MAX` on the modelled LP64 platform. -/
def SIZE_MAX : Nat := 2 ^ 64 - 1

/-- `WC_ALIGN = sizeof(union { void*; size_t; unsigned long })` on LP64. -/
def WC_ALIGN : Nat := 8

/-- `sizeof(Slot)` on LP64: pointer + 2 `size_t` + `unsigned long`. -/
def sizeofSlot : Nat := 32

/-- `sizeof(Block)` on LP64: 3 pointers, flexible array member adds 0. -/
def sizeofBlock : Nat := 24

/-- Compile-time ceiling `WC_MAX_WORD` (default 1024). -/
def WC_MAX_WORD : Nat := 1024

/-- `WC_MIN_INIT_CAP` (default 16). -/
def WC_MIN_INIT_CAP : Nat := 16

/-- `WC_MIN_BLOCK_SZ` (default 256). -/
def WC_MIN_BLOCK_SZ : Nat := 256

/-- `WC_DEFAULT_INIT_CAP` for a 64-bit address space. -/
def WC_DEFAULT_INIT_CAP : Nat := 4096

/-- `WC_DEFAULT_BLOCK_SZ` for a 64-bit address space. -/
def WC_DEFAULT_BLOCK_SZ : Nat := 65536

/-- Runtime clamp floor `MIN_WORD`. -/
def MIN_WORD : Nat := 4

/-- Runtime default `DEF_WORD` used when `max_word == 0`. -/
def DEF_WORD : Nat := 64

/-- Return codes. -/
def WC_OK : Nat := 0

def WC_ERROR : Nat := 1

def WC_NOMEM : Nat := 2

/-- `FNV_OFF_32 = 2166136261`. -/
def FNV_OFF_32 : Nat := 2166136261

/-- `FNV_MUL_32 = 16777619`. -/
def FNV_MUL_32 : Nat := 16777619

/-- The 32-bit mask: `h & 0xffffffff` is `h % MASK32`. -/
def MASK32 : Nat := 2 ^ 32

/-- `add_overflows(a, b)`: `a > SIZE_MAX - b` (C, with `b ≤ SIZE_MAX`). -/
def add_overflows (a b : Nat) : Bool := a > SIZE_MAX - b

/-- `mul_overflows(a, b)`: `b != 0 && a > SIZE_MAX / b`. -/
def mul_overflows (a b : Nat) : Bool := b ≠ 0 && a > SIZE_MAX / b

/-- One step of 32-bit FNV-1a: xor in the byte, multiply, mask. -/
def fnvStep (h c : Nat) : Nat := ((h ^^^ c) * FNV_MUL_32) % MASK32

/-- `fnv32(s, n, seed_basis)`: 32-bit FNV-1a over the bytes, the
accumulator masked to 32 bits on every multiplication step. -/
def fnv32 (s : List Nat) (seed_basis : Nat) : Nat :=
  s.foldl fnvStep (seed_basis % MASK32)

/-- `isalpha_(c)`: `((unsigned)c | 32u) - 'a' < 26u`, the subtraction in
32-bit unsigned arithmetic (wrapping when `(c|32) < 97`). -/
def isalpha_ (c : Nat) : Bool :=
  ((c ||| 32) + (MASK32 - 97)) % MASK32 < 26

/-- An occupied hash-table slot.  `word` is the content of the arena
buffer the C `char *word` points at: `n + 1` bytes, the key followed by
the NUL that the zero-initialised arena guarantees. -/
structure SlotData where
  word : List Nat
  n : Nat
  cnt : Nat
  hash : Nat
deriving DecidableEq

/-- A slot: `none` models `word == NULL` (empty). -/
abbrev Slot := Option SlotData

/-- An arena block: `bcap = end - buf`, `used = cur - buf`. -/
structure Block where
  bcap : Nat
  used : Nat
deriving DecidableEq

/-- `wc_alloc_state`. -/
structure AllocState where
  bytes_used : Nat
  bytes_limit : Nat
  static_mode : Bool
  sbuf_size : Nat
  sbuf_used : Nat
deriving DecidableEq

/-- The `wc` object.  The arena is its block list split as
`arena_rest ++ [arena_tail]`; allocation only touches the tail. -/
structure WC where
  tab : List Slot
  cap : Nat
  len : Nat
  tot : Nat
  maxw : Nat
  arena_rest : List Block
  arena_tail : Block
  arena_block_sz : Nat
  alloc : AllocState
  seed : Nat
deriving DecidableEq

/-- `wc_limits`; `static_buf` is the address of the caller region
(`none` for `NULL`). -/
structure Limits where
  max_bytes : Nat
  init_cap : Nat
  block_size : Nat
  static_buf : Option Nat
  static_size : Nat
  hash_seed : Nat
deriving DecidableEq

/-- `wc_xmalloc_state`.  Returns the updated state on success, `none`
on failure (the C function also returns the pointer, which the model
does not track; in dynamic mode `WC_MALLOC` itself is infallible). -/
def wc_xmalloc_state (st : AllocState) (n : Nat) : Option AllocState :=
  if n = 0 then none
  else if !st.static_mode then
    if add_overflows st.bytes_used n then none
    else
      let new_used := st.bytes_used + n
      if st.bytes_limit ≠ 0 && new_used > st.bytes_limit then none
      else some { st with bytes_used := new_used }
  else
    let off := st.sbuf_used
    let pad := (WC_ALIGN - off % WC_ALIGN) % WC_ALIGN
    if add_overflows pad n then none
    else
      let real := pad + n
      if add_overflows st.sbuf_used real then none
      else if st.sbuf_used + real > st.sbuf_size then none
      else if add_overflows st.bytes_used real then none
      else
        let new_used := st.bytes_used + real
        if st.bytes_limit ≠ 0 && new_used > st.bytes_limit then none
        else some { st with sbuf_used := st.sbuf_used + real,
                            bytes_used := new_used }

/-- `wc_xmalloc`, acting on the counter's allocator state. -/
def wc_xmalloc (w : WC) (n : Nat) : Option WC :=
  (wc_xmalloc_state w.alloc n).map fun st => { w with alloc := st }

/-- `wc_xfree` (dynamic: decrement `bytes_used` saturating at 0;
static: no-op). -/
def wc_xfree (w : WC) (n : Nat) : WC :=
  if !w.alloc.static_mode then
    { w with alloc := { w.alloc with
        bytes_used := if w.alloc.bytes_used ≥ n
                      then w.alloc.bytes_used - n else 0 } }
  else w

/-- `block_new(w, cap)`: allocate `sizeof(Block) + cap` and return the
fresh block (cur = buf). -/
def block_new (w : WC) (bcap : Nat) : Option (WC × Block) :=
  if add_overflows sizeofBlock bcap then none
  else (wc_xmalloc w (sizeofBlock + bcap)).map fun w' =>
    (w', { bcap := bcap, used := 0 })

/-- `arena_alloc(w, sz)` with `WC_ALIGN` alignment; in static mode the
arena never grows past its first block. -/
def arena_alloc (w : WC) (sz : Nat) : Option WC :=
  let offset := w.arena_tail.used
  let pad := (WC_ALIGN - offset % WC_ALIGN) % WC_ALIGN
  let avail := w.arena_tail.bcap - w.arena_tail.used
  if avail ≥ pad ∧ avail - pad ≥ sz then
    some { w with arena_tail := { w.arena_tail with used := offset + pad + sz } }
  else if w.alloc.static_mode then none
  else if add_overflows sz WC_ALIGN then none
  else
    let need := sz + WC_ALIGN
    let bcap := if need > w.arena_block_sz then need else w.arena_block_sz
    (block_new w bcap).map fun (w', b) =>
      { w' with arena_rest := w'.arena_rest ++ [w'.arena_tail],
                arena_tail := { b with used := sz } }

/-- Home bucket of a hash: `(h & MASK32) & (cap - 1)`; for the
power-of-two capacities the counter maintains, `x & (cap - 1) = x % cap`. -/
def home (h cap : Nat) : Nat := (h % MASK32) % cap

/-- Whether slot `s` matches the probe `(word, n, h)`:
`s->hash == (h & MASK) && s->n == n && memcmp(s->word, word, n) == 0`. -/
def slotMatches (s : SlotData) (word : List Nat) (n h : Nat) : Bool :=
  s.hash = h % MASK32 && s.n = n && s.word.take n = word.take n

/-- The probing loop of `tab_find`, with explicit fuel; the C do-while
visits exactly `cap` slots before giving up. Returns the index of the
first empty or matching slot. -/
def tab_find_go (tab : List Slot) (cap : Nat) (word : List Nat) (n h : Nat) :
    Nat → Nat → Option Nat
  | 0, _ => none
  | fuel + 1, idx =>
    match tab.getD idx none with
    | none => some idx
    | some s =>
      if slotMatches s word n h then some idx
      else tab_find_go tab cap word n h fuel ((idx + 1) % cap)

/-- `tab_find`: probe from `(h & MASK32) & (cap - 1)`; `none` models the
NULL return after a full traversal.  `x & (cap - 1) = x % cap` for the
power-of-two capacities the counter maintains. -/
def tab_find (w : WC) (word : List Nat) (n h : Nat) : Option Nat :=
  tab_find_go w.tab w.cap word n h w.cap (home h w.cap)

/-- The rehash placement loop in `tab_grow`:
`while (ns[idx].word) idx = (idx + 1) & (nc - 1)`, with fuel `nc`. -/
def place_go (ntab : List Slot) (nc : Nat) : Nat → Nat → Option Nat
  | 0, _ => none
  | fuel + 1, idx =>
    match ntab.getD idx none with
    | none => some idx
    | some _ => place_go ntab nc fuel ((idx + 1) % nc)

/-- Re-insert one occupied slot into the new array during growth. -/
def place_slot (ntab : List Slot) (nc : Nat) (s : SlotData) : Option (List Slot) :=
  (place_go ntab nc nc (home s.hash nc)).map fun idx =>
    ntab.set idx (some s)

/-- Rehash every occupied slot of `old` into a fresh table of `nc` slots. -/
def rehash (old : List Slot) (nc : Nat) : Option (List Slot) :=
  old.foldl
    (fun acc os =>
      match acc, os with
      | none, _ => none
      | some ntab, none => some ntab
      | some ntab, some s => place_slot ntab nc s)
    (some (List.replicate nc none))

/-- `tab_grow`: double the capacity, rehash, release the old array.
`none` models the `-1` failure return, in which case the counter is
unchanged (the C code mutates nothing before the final swap). -/
def tab_grow (w : WC) : Option WC :=
  if mul_overflows w.cap 2 then none
  else
    let nc := w.cap * 2
    if mul_overflows nc sizeofSlot then none
    else
      match wc_xmalloc w (nc * sizeofSlot) with
      | none => none
      | some w1 =>
        match rehash w.tab nc with
        | none => none
        | some ntab =>
          some (wc_xfree { w1 with tab := ntab, cap := nc } (w.cap * sizeofSlot))

/-- The part of `tab_insert` after the growth check: probe, then
either bump the matched slot's count or copy the key into the arena
and populate the empty slot. -/
def tab_insert_found (w1 : WC) (word : List Nat) (n h : Nat) : Bool × WC :=
  match tab_find w1 word n h with
  | none => (false, w1)
  | some idx =>
    match w1.tab.getD idx none with
    | some s =>
        (true, { w1 with tab := w1.tab.set idx (some { s with cnt := s.cnt + 1 }),
                         tot := w1.tot + 1 })
    | none =>
      if add_overflows n 1 then (false, w1)
      else
        match arena_alloc w1 (n + 1) with
        | none => (false, w1)
        | some w2 =>
          (true, { w2 with
            tab := w2.tab.set idx (some
              { word := word.take n ++ [0], n := n,
                cnt := 1, hash := h % MASK32 }),
            len := w2.len + 1,
            tot := w2.tot + 1 })

/-- `tab_insert(w, word, n, h)`.  Returns `(ok, w')`; on failure `ok`
is `false` and `w'` is the (possibly grown) state the C code leaves
behind.  The load-factor check precedes the probe, as in the source. -/
def tab_insert (w : WC) (word : List Nat) (n h : Nat) : Bool × WC :=
  let step : Option WC :=
    if w.len * 10 ≥ w.cap * 7 then
      if w.alloc.static_mode then none else tab_grow w
    else some w
  match step with
  | none => (false, w)
  | some w1 => tab_insert_found w1 word n h

/-- The `while ((p << 1) <= max_cap) p <<= 1` loop of `tune_params`
(round down to a power of two), with fuel 64 covering every `size_t`
value. -/
def pow2_down_go : Nat → Nat → Nat → Nat
  | 0, p, _ => p
  | fuel + 1, p, m => if p * 2 ≤ m then pow2_down_go fuel (p * 2) m else p

def pow2_down (m : Nat) : Nat := pow2_down_go 64 1 m

/-- The `while (p < cap && p <= SIZE_MAX / 2) p <<= 1` loop of
`tune_params` (round up to a power of two). -/
def pow2_up_go : Nat → Nat → Nat → Nat
  | 0, p, _ => p
  | fuel + 1, p, c =>
    if p < c ∧ p ≤ SIZE_MAX / 2 then pow2_up_go fuel (p * 2) c else p

def pow2_up (c : Nat) : Nat := pow2_up_go 64 1 c

/-- The pre-clamp choice of `(init_cap, block_sz)` made by
`tune_params` from the limits block. -/
def tune_st (lim : Option Limits) : Nat × Nat :=
  let cap0 := WC_DEFAULT_INIT_CAP
  let blk0 := WC_DEFAULT_BLOCK_SZ
  match lim with
    | none => (cap0, blk0)
    | some l =>
      let cap1 := if l.init_cap ≠ 0 then l.init_cap else cap0
      let blk1 := if l.block_size ≠ 0 then l.block_size else blk0
      let budget0 := if l.max_bytes ≠ 0 then l.max_bytes else 0
      let budget :=
        if l.static_buf.isSome ∧ l.static_size ≠ 0 then
          if budget0 = 0 ∨ l.static_size < budget0 then l.static_size
          else budget0
        else budget0
      if budget ≠ 0 then
        let table_budget := budget / 2
        let cap2 :=
          if !mul_overflows cap1 sizeofSlot ∧
              cap1 * sizeofSlot > table_budget ∧ table_budget > 0 then
            let max_cap := table_budget / sizeofSlot
            let max_cap := if max_cap < WC_MIN_INIT_CAP then WC_MIN_INIT_CAP
                           else max_cap
            pow2_down max_cap
          else cap1
        let arena_budget := budget - table_budget
        let max_blk := arena_budget / 4
        let blk2 := if max_blk > 0 ∧ blk1 > max_blk then max_blk else blk1
        (cap2, blk2)
      else (cap1, blk1)

/-- `tune_params(lim, &init_cap, &block_sz)`. -/
def tune_params (lim : Option Limits) : Nat × Nat :=
  let st := tune_st lim
  let cap := if st.1 < WC_MIN_INIT_CAP then WC_MIN_INIT_CAP else st.1
  let cap := pow2_up cap
  let blk := if st.2 < WC_MIN_BLOCK_SZ then WC_MIN_BLOCK_SZ else st.2
  (cap, blk)

/-- The seed basis computed by `wc_open_ex`: `FNV_OFF_32` XOR the
seed folded to 32 bits (`hs ^= hs >> 32` on LP64, then masked). -/
def mk_seed (hash_seed : Nat) : Nat :=
  let basis := FNV_OFF_32 % MASK32
  if hash_seed ≠ 0 then
    let hs := hash_seed ^^^ (hash_seed >>> 32)
    (basis ^^^ (hs % MASK32)) % MASK32
  else basis % MASK32

/-- `wc_open_ex(max_word, limits)`; `none` models the NULL return.
`WC_MALLOC(sizeof *w)` itself is infallible in the model, and the
build has `WC_STACK_BUFFER = 1`, so no per-counter scan buffer is
allocated. -/
def open_alloc0 (lim : Option Limits) : AllocState :=
  match lim with
  | some l =>
    if l.static_buf.isSome ∧ l.static_size > 0 then
      { bytes_used := 0, bytes_limit := 0, static_mode := true,
        sbuf_size := l.static_size, sbuf_used := 0 }
    else
      { bytes_used := 0, bytes_limit := 0, static_mode := false,
        sbuf_size := 0, sbuf_used := 0 }
  | none =>
    { bytes_used := 0, bytes_limit := 0, static_mode := false,
      sbuf_size := 0, sbuf_used := 0 }

/-- Base-pointer alignment check for the static region. -/
def open_align_ok (lim : Option Limits) : Bool :=
  match lim with
  | some l =>
    match l.static_buf with
    | some base => l.static_size = 0 ∨ base % WC_ALIGN = 0
    | none => true
  | none => true

/-- The clamp of `max_bytes` against the static-region size. -/
def open_bytes_limit (lim : Option Limits) : Nat :=
  match lim with
  | some l =>
    if l.max_bytes ≠ 0 then
      if (open_alloc0 lim).static_mode ∧ l.static_size > 0 ∧
          l.max_bytes > l.static_size
      then l.static_size else l.max_bytes
    else 0
  | none => 0

/-- The `max_word` clamp chain of `wc_open_ex`: default, then at
least `MIN_WORD`, then at most `WC_MAX_WORD`. -/
def open_maxw (max_word : Nat) : Nat :=
  let maxw0 := if max_word = 0 then DEF_WORD else max_word
  let maxw1 := if maxw0 < MIN_WORD then MIN_WORD else maxw0
  if maxw1 > WC_MAX_WORD then WC_MAX_WORD else maxw1

/-- The block-size clamp of `wc_open_ex`: at least `maxw + 1` and at
least `WC_MIN_BLOCK_SZ`. -/
def open_block_sz (maxw blk0 : Nat) : Nat :=
  let need := maxw + 1
  let blk1 := if blk0 < need then need else blk0
  if blk1 < WC_MIN_BLOCK_SZ then WC_MIN_BLOCK_SZ else blk1

/-- The seed chosen by `wc_open_ex`. -/
def open_seed (lim : Option Limits) : Nat :=
  match lim with
  | some l => mk_seed l.hash_seed
  | none => mk_seed 0

/-- The static-mode preflight of `wc_open_ex` on a scratch copy of
the allocator state. -/
def open_preflight (alloc1 : AllocState) (init_cap block_sz : Nat) : Bool :=
  if alloc1.static_mode then
    if mul_overflows init_cap sizeofSlot then false
    else
      match wc_xmalloc_state alloc1 (init_cap * sizeofSlot) with
      | none => false
      | some scratch1 =>
        if add_overflows sizeofBlock block_sz then false
        else
          match wc_xmalloc_state scratch1 (sizeofBlock + block_sz) with
          | none => false
          | some _ => true
  else true

def wc_open_ex (max_word : Nat) (lim : Option Limits) : Option WC :=
  let tp := tune_params lim
  let init_cap := tp.1
  if !open_align_ok lim then none
  else
    let alloc1 :=
      { open_alloc0 lim with bytes_limit := open_bytes_limit lim }
    let maxw := open_maxw max_word
    if add_overflows maxw 1 then none
    else
      let block_sz := open_block_sz maxw tp.2
      if !open_preflight alloc1 init_cap block_sz then none
      else if mul_overflows init_cap sizeofSlot then none
      else
        match wc_xmalloc_state alloc1 (init_cap * sizeofSlot) with
        | none => none
        | some alloc2 =>
          -- arena_init: one fresh block of block_sz bytes
          if add_overflows sizeofBlock block_sz then none
          else
            match wc_xmalloc_state alloc2 (sizeofBlock + block_sz) with
            | none => none
            | some alloc3 =>
              some { tab := List.replicate init_cap none,
                     cap := init_cap, len := 0, tot := 0, maxw := maxw,
                     arena_rest := [],
                     arena_tail := { bcap := block_sz, used := 0 },
                     arena_block_sz := block_sz,
                     alloc := alloc3, seed := open_seed lim }

/-- `wc_open(max_word) = wc_open_ex(max_word, NULL)`. -/
def wc_open (max_word : Nat) : Option WC := wc_open_ex max_word none

/-- `wc_add(w, word)`.  The input list holds the bytes of the
NUL-terminated C string (terminator excluded); `none` is a NULL
pointer.  The loop `for (n = 0; n < maxw && word[n]; n++)` stops at
the first NUL byte or at `maxw`. -/
def wc_add (w : WC) (word : Option (List Nat)) : Nat × WC :=
  match word with
  | none => (WC_ERROR, w)
  | some bs =>
    let key := (bs.takeWhile (fun c => c ≠ 0)).take w.maxw
    if key.length = 0 then (WC_OK, w)
    else
      let h := fnv32 key w.seed
      match tab_insert w key key.length h with
      | (true, w') => (WC_OK, w')
      | (false, w') => (WC_NOMEM, w')

/-- One letter of the scan inner loop: lowercase with `| 32`, and while
`n < maxw` append to the token buffer and fold the byte into the
incremental FNV-1a accumulator. -/
def tokStep (maxw : Nat) (st : List Nat × Nat) (c : Nat) : List Nat × Nat :=
  let lc := c ||| 32
  if st.1.length < maxw then (st.1 ++ [lc], fnvStep st.2 lc)
  else st

/-- The outer loop of `wc_scan`: skip separators, collect one token,
insert it, abort with `WC_NOMEM` on insertion failure.  Fuel-based;
every iteration consumes at least one input byte, so fuel equal to the
input length is always sufficient. -/
def scan_go : Nat → WC → List Nat → Nat × WC
  | 0, w, _ => (WC_OK, w)
  | fuel + 1, w, bs =>
    let bs1 := bs.dropWhile (fun c => !isalpha_ c)
    match bs1 with
    | [] => (WC_OK, w)
    | _ :: _ =>
      let letters := bs1.takeWhile isalpha_
      let rest := bs1.dropWhile isalpha_
      let tok := letters.foldl (tokStep w.maxw) ([], w.seed)
      match tab_insert w tok.1 tok.1.length tok.2 with
      | (true, w') => scan_go fuel w' rest
      | (false, w') => (WC_NOMEM, w')

/-- `wc_scan(w, text, len)`.  `text = none` is a NULL pointer; the
buffer must supply `len` readable bytes, modelled by `bs.take len`. -/
def wc_scan (w : WC) (text : Option (List Nat)) (len : Nat) : Nat × WC :=
  if len = 0 then (WC_OK, w)
  else
    match text with
    | none => (WC_ERROR, w)
    | some bs => scan_go len w (bs.take len)

/-- `wc_total`. -/
def wc_total (w : WC) : Nat := w.tot

/-- `wc_unique`. -/
def wc_unique (w : WC) : Nat := w.len

/-- The occupied slots of a table, in slot order. -/
def tab_entries (tab : List Slot) : List SlotData := tab.filterMap id

/-- A public `wc_word` result entry: the stored buffer pointer and the
count. -/
structure Entry where
  word : List Nat
  count : Nat
deriving DecidableEq

/-- `sizeof(wc_word)` on LP64: pointer + `size_t`. -/
def sizeofWcWord : Nat := 16

/-- C `strcmp` on NUL-terminated buffers (an exhausted list reads as a
NUL); result is the sign of the first differing byte pair. -/
def strcmp : List Nat → List Nat → Int
  | [], [] => 0
  | [], b :: _ => if b = 0 then 0 else -1
  | a :: _, [] => if a = 0 then 0 else 1
  | a :: as, b :: bs =>
    if a = b then (if a = 0 then 0 else strcmp as bs)
    else if a < b then -1 else 1

/-- `cmp_words`: count descending, then `strcmp` on the stored bytes. -/
def cmp_words (x y : Entry) : Int :=
  if x.count ≠ y.count then (if x.count > y.count then -1 else 1)
  else strcmp x.word y.word

/-- The (non-strict) order `qsort` sorts by. -/
def cmpLE (x y : Entry) : Prop := cmp_words x y ≤ 0

instance : DecidableRel cmpLE := fun x y => by
  unfold cmpLE; infer_instance

/-- `wc_results(w, &out, &n)` (with non-NULL out-parameters).  Returns
the status and the array (`none` models `*out == NULL`).  `qsort` with
`cmp_words` is modelled by insertion sort: the comparator is a total
preorder, antisymmetric on the distinct keys the table holds, so the
sorted permutation `qsort` must produce is unique. -/
def wc_results (w : WC) : Nat × Option (List Entry) :=
  if w.len = 0 then (WC_OK, none)
  else if mul_overflows w.len sizeofWcWord then (WC_NOMEM, none)
  else
    let cnt := (tab_entries w.tab).length
    if cnt ≠ w.len then (WC_ERROR, none)
    else
      let arr := (tab_entries w.tab).map fun s =>
        { word := s.word, count := s.cnt : Entry }
      (WC_OK, some (arr.insertionSort (fun x y => cmp_words x y ≤ 0)))

/-! ## Abstractions and invariants used by the theorems -/

/-- The key bytes a slot stores (everything before the trailing NUL). -/
def SlotData.key (s : SlotData) : List Nat := s.word.take s.n

/-- Slot `i` of the table is occupied. -/
def Occ (tab : List Slot) (i : Nat) : Prop := (tab.getD i none).isSome = true

/-- Well-formedness of one stored slot, relative to the counter's seed
basis and clamped maximum token length. -/
structure SlotWF (seed maxw : Nat) (s : SlotData) : Prop where
  word_eq : s.word = s.word.take s.n ++ [0]
  hash_eq : s.hash = fnv32 (s.word.take s.n) seed
  npos : 1 ≤ s.n
  nle : s.n ≤ maxw
  cnt_pos : 1 ≤ s.cnt
  key_nonul : ∀ b ∈ s.word.take s.n, b ≠ 0

/-- Every index on the cyclic probe path from `h0` to `i` (exclusive)
is occupied. -/
def pathOcc (tab : List Slot) (cap h0 i : Nat) : Prop :=
  ∀ t, t < (i + cap - h0) % cap → Occ tab ((h0 + t) % cap)

/-- The probe-invariant property of a table, on its own. -/
def ProbeInv (cap : Nat) (tab : List Slot) : Prop :=
  ∀ i s, tab.getD i none = some s → pathOcc tab cap (home s.hash cap) i

/-- Well-formedness of a whole slot array. -/
structure TabWF (seed maxw cap : Nat) (tab : List Slot) : Prop where
  len_eq : tab.length = cap
  wf : ∀ s ∈ tab_entries tab, SlotWF seed maxw s
  nodup : (tab_entries tab).Pairwise (fun a b => a.key ≠ b.key)
  probe : ∀ i s, tab.getD i none = some s → pathOcc tab cap (home s.hash cap) i

/-- The main counter invariant, preserved by every public mutation. -/
structure Inv (w : WC) : Prop where
  twf : TabWF w.seed w.maxw w.cap w.tab
  cap_pow : ∃ k, w.cap = 2 ^ k
  cap_min : WC_MIN_INIT_CAP ≤ w.cap
  load : w.len * 10 < w.cap * 7 + 10
  occ_len : (tab_entries w.tab).length = w.len
  tot_sum : ((tab_entries w.tab).map SlotData.cnt).sum = w.tot
  seed_lt : w.seed < MASK32
  maxw_pos : 1 ≤ w.maxw
  maxw_le : w.maxw ≤ WC_MAX_WORD

/-- Counter states reachable through the public API. -/
inductive Reach : WC → Prop
  | open_ex (mw : Nat) (lim : Option Limits) (w : WC) :
      wc_open_ex mw lim = some w → Reach w
  | add (w : WC) (word : Option (List Nat)) (w' : WC) :
      Reach w → (wc_add w word).2 = w' → Reach w'
  | scan (w : WC) (text : Option (List Nat)) (len : Nat) (w' : WC) :
      Reach w → (wc_scan w text len).2 = w' → Reach w'

/-- Total stored count for key `k` (summed over every slot holding it;
under the invariant at most one slot does). -/
def keyCount (tab : List Slot) (k : List Nat) : Nat :=
  ((tab_entries tab).map fun s => if s.key = k then s.cnt else 0).sum

/-- Keys of the table, in slot order. -/
def tab_keys (tab : List Slot) : List (List Nat) :=
  (tab_entries tab).map SlotData.key

/-- The slot a key `k` with count `c` occupies under seed basis
`seed`: its stored bytes, length, count, and hash are all determined. -/
def mkSlot (seed : Nat) (k : List Nat) (c : Nat) : SlotData :=
  { word := k ++ [0], n := k.length, cnt := c, hash := fnv32 k seed }

/-- `rehash` reformulated over the occupied slots only (the `none`
slots of the old table contribute nothing to its fold). -/
def place_list (nc : Nat) : List Slot → List SlotData → Option (List Slot)
  | ntab, [] => some ntab
  | ntab, s :: ss =>
    match place_slot ntab nc s with
    | none => none
    | some ntab' => place_list nc ntab' ss

/-- Insert a pre-tokenized list of `(buffer, hash)` tokens, aborting
like the `wc_scan` loop does on the first failure. -/
def insert_tokens : WC → List (List Nat × Nat) → Nat × WC
  | w, [] => (WC_OK, w)
  | w, t :: ts =>
    match tab_insert w t.1 t.1.length t.2 with
    | (true, w') => insert_tokens w' ts
    | (false, w') => (WC_NOMEM, w')

/-- The token stream `wc_scan` extracts from a byte list: lowercased
letter runs truncated to `maxw`, each with its incremental hash. -/
def tokens_go (maxw seed : Nat) : Nat → List Nat → List (List Nat × Nat)
  | 0, _ => []
  | fuel + 1, bs =>
    let bs1 := bs.dropWhile (fun c => !isalpha_ c)
    match bs1 with
    | [] => []
    | _ :: _ =>
      (bs1.takeWhile isalpha_).foldl (tokStep maxw) ([], seed) ::
        tokens_go maxw seed fuel (bs1.dropWhile isalpha_)

/-- `wc_add` each word in turn; `none` if any call fails. -/
def add_all : WC → List (List Nat) → Option WC
  | w, [] => some w
  | w, k :: ks =>
    match wc_add w (some k) with
    | (rc, w') => if rc = WC_OK then add_all w' ks else none

/-- The truncation `wc_add` applies to its input bytes. -/
def truncKey (maxw : Nat) (bs : List Nat) : List Nat :=
  (bs.takeWhile fun c => c ≠ 0).take maxw

/-- The order `wc_results` output obeys: count strictly descending,
ties broken by strictly ascending `strcmp` on the stored bytes. -/
def resOrder (x y : Entry) : Prop :=
  x.count > y.count ∨ (x.count = y.count ∧ strcmp x.word y.word < 0)

/-! ## Concrete inputs used by the end-to-end claims -/

def bytesOf (s : String) : List Nat := s.toList.map Char.toNat

/-- The 27 bytes of `"svhpy znycrycwqhztadbhsrdok"`: two tokens of
different lengths with colliding seedless FNV-1a hashes. -/
def collisionInput : List Nat := bytesOf "svhpy znycrycwqhztadbhsrdok"

/-- The spec's truncation scenario: the 50 visible bytes plus the
string literal's NUL terminator, matching the stated length 51. -/
def truncInput : List Nat :=
  bytesOf "internationalization internationally international" ++ [0]

/-- Limits selecting a 16-slot initial table (dynamic mode). -/
def lim16 : Limits :=
  { max_bytes := 0, init_cap := 16, block_size := 0,
    static_buf := none, static_size := 0, hash_seed := 0 }

/-- Twelve distinct four-letter words. -/
def words12 : List (List Nat) :=
  (List.range 12).map fun i => [97 + i, 98, 99, 100]

/-- A throwaway counter value, used only as the fallback branch of
`Option`-eliminations on construction results. -/
def wcJunk : WC :=
  { tab := [], cap := 0, len := 0, tot := 0, maxw := 1, arena_rest := [],
    arena_tail := { bcap := 0, used := 0 }, arena_block_sz := 0,
    alloc := { bytes_used := 0, bytes_limit := 0, static_mode := false,
               sbuf_size := 0, sbuf_used := 0 }, seed := 0 }

/-- The counter `wc_open_ex(0, &lim16)` returns. -/
def wInit : WC :=
  match wc_open_ex 0 (some lim16) with
  | some w => w
  | none => wcJunk

/-- `wInit` after `wc_add("hello")`. -/
def wOne : WC := (wc_add wInit (some (bytesOf "hello"))).2

def wordsAB : List (List Nat) := [bytesOf "alpha", bytesOf "beta"]

def wordsBA : List (List Nat) := [bytesOf "beta", bytesOf "alpha"]

/-- `wInit` after adding `wordsAB` in order. -/
def wAB : WC :=
  match add_all wInit wordsAB with
  | some w => w
  | none => wcJunk

/-- `wInit` after adding `wordsBA` in order. -/
def wBA : WC :=
  match add_all wInit wordsBA with
  | some w => w
  | none => wcJunk

/-! ## Basic lemmas -/

theorem MASK32_pos : 0 < MASK32 := by norm_num [MASK32]

theorem fnvStep_lt (h c : Nat) : fnvStep h c < MASK32 :=
  Nat.mod_lt _ MASK32_pos

theorem foldl_fnvStep_lt (l : List Nat) (h : Nat) (hh : h < MASK32) :
    l.foldl fnvStep h < MASK32 := by
  induction l generalizing h with
  | nil => exact hh
  | cons c l ih => exact ih _ (fnvStep_lt _ _)

theorem fnv32_lt (s : List Nat) (b : Nat) : fnv32 s b < MASK32 :=
  foldl_fnvStep_lt _ _ (Nat.mod_lt _ MASK32_pos)

theorem fnv32_snoc (s : List Nat) (c b : Nat) :
    fnv32 (s ++ [c]) b = fnvStep (fnv32 s b) c := by
  simp [fnv32, List.foldl_append]

theorem fnv32_mod (s : List Nat) (b : Nat) : fnv32 s b % MASK32 = fnv32 s b :=
  Nat.mod_eq_of_lt (fnv32_lt s b)

/-- The scan inner loop maintains `h = fnv32 buf seed`. -/
theorem tokStep_hash (maxw seed : Nat) (letters : List Nat)
    (st : List Nat × Nat) (hst : st.2 = fnv32 st.1 seed) :
    (letters.foldl (tokStep maxw) st).2 =
      fnv32 (letters.foldl (tokStep maxw) st).1 seed := by
  induction letters generalizing st with
  | nil => exact hst
  | cons c l ih =>
    refine ih _ ?_
    by_cases hlt : st.1.length < maxw
    · simp only [tokStep, hlt, if_pos, List.foldl_cons]
      simp [hlt, fnv32_snoc, hst]
    · simp [tokStep, hlt, hst]

/-- The scan inner loop stores the lowercased letters truncated at
`maxw`. -/
theorem tokStep_buf (maxw : Nat) (letters : List Nat)
    (buf : List Nat) (h : Nat) (hbuf : buf.length ≤ maxw) :
    (letters.foldl (tokStep maxw) (buf, h)).1 =
      (buf ++ letters.map fun c => c ||| 32).take maxw := by
  induction letters generalizing buf h with
  | nil => simp [List.take_of_length_le hbuf]
  | cons c l ih =>
    by_cases hlt : buf.length < maxw
    · have hq : ((buf ++ [c ||| 32]) ++ l.map fun c => c ||| 32).take maxw =
          (buf ++ (c :: l).map fun c => c ||| 32).take maxw := by
        simp
      rw [List.foldl_cons]
      have hts : tokStep maxw (buf, h) c = (buf ++ [c ||| 32], fnvStep h (c ||| 32)) := by
        simp [tokStep, hlt]
      rw [hts, ih (buf ++ [c ||| 32]) _
          (by simp only [List.length_append, List.length_cons, List.length_nil]; omega),
        hq]
    · have hlen : buf.length = maxw := le_antisymm hbuf (not_lt.mp hlt)
      rw [List.foldl_cons]
      have hts : tokStep maxw (buf, h) c = (buf, h) := by
        simp [tokStep, hlt]
      rw [hts, ih buf h hbuf]
      rw [List.take_append_of_le_length (le_of_eq hlen.symm),
          List.take_append_of_le_length (le_of_eq hlen.symm)]

/-- The complete token extracted from a letter run. -/
theorem token_spec (maxw seed : Nat) (letters : List Nat) (hs : seed < MASK32) :
    (letters.foldl (tokStep maxw) ([], seed)).1 =
      (letters.map fun c => c ||| 32).take maxw ∧
    (letters.foldl (tokStep maxw) ([], seed)).2 =
      fnv32 ((letters.map fun c => c ||| 32).take maxw) seed := by
  have h1 := tokStep_buf maxw letters [] seed (by simp)
  have h2 := tokStep_hash maxw seed letters ([], seed)
      (by simp [fnv32, Nat.mod_eq_of_lt hs])
  simp only [List.nil_append] at h1
  exact ⟨h1, by rw [h2, h1]⟩

/-! ## Entry-list lemmas -/

theorem tab_entries_nil : tab_entries [] = [] := rfl

theorem tab_entries_append (l1 l2 : List Slot) :
    tab_entries (l1 ++ l2) = tab_entries l1 ++ tab_entries l2 := by
  simp [tab_entries]

theorem tab_entries_cons_some (s : SlotData) (xs : List Slot) :
    tab_entries (some s :: xs) = s :: tab_entries xs := by
  simp [tab_entries]

theorem tab_entries_cons_none (xs : List Slot) :
    tab_entries (none :: xs) = tab_entries xs := by
  simp [tab_entries]

theorem tab_entries_replicate (n : Nat) :
    tab_entries (List.replicate n (none : Slot)) = [] := by
  induction n with
  | zero => rfl
  | succ n ih =>
    rw [List.replicate_succ, tab_entries_cons_none]
    exact ih

/-- The table decomposes around index `i`. -/
theorem tab_decomp (tab : List Slot) (i : Nat) (hi : i < tab.length) :
    tab = tab.take i ++ tab.getD i none :: tab.drop (i + 1) := by
  conv_lhs => rw [← List.take_append_drop i tab]
  rw [List.drop_eq_getElem_cons hi, List.getD_eq_getElem _ _ hi]

theorem tab_entries_decomp (tab : List Slot) (i : Nat) (hi : i < tab.length) :
    tab_entries tab =
      tab_entries (tab.take i) ++ (tab.getD i none).toList ++
        tab_entries (tab.drop (i + 1)) := by
  conv_lhs => rw [tab_decomp tab i hi]
  rw [tab_entries_append]
  cases h : tab.getD i none <;> simp [tab_entries]

theorem tab_entries_set (tab : List Slot) (i : Nat) (hi : i < tab.length)
    (v : Slot) :
    tab_entries (tab.set i v) =
      tab_entries (tab.take i) ++ v.toList ++
        tab_entries (tab.drop (i + 1)) := by
  rw [List.set_eq_take_cons_drop _ hi, tab_entries_append]
  cases v <;> simp [tab_entries]

theorem getD_none_of_le (tab : List Slot) (i : Nat) (h : tab.length ≤ i) :
    tab.getD i none = none := List.getD_eq_default _ _ h

theorem getD_some_lt (tab : List Slot) (i : Nat) (s : SlotData)
    (h : tab.getD i none = some s) : i < tab.length := by
  by_contra hc
  rw [getD_none_of_le tab i (not_lt.mp hc)] at h
  exact Option.noConfusion h

theorem mem_entries_of_getD (tab : List Slot) (i : Nat) (s : SlotData)
    (h : tab.getD i none = some s) : s ∈ tab_entries tab := by
  have hi := getD_some_lt tab i s h
  rw [List.getD_eq_getElem _ _ hi] at h
  have hmem : some s ∈ tab := by rw [← h]; exact List.getElem_mem hi
  rw [tab_entries, List.mem_filterMap]
  exact ⟨some s, hmem, rfl⟩

theorem entries_mem_getD {tab : List Slot} {s : SlotData}
    (h : s ∈ tab_entries tab) : ∃ i, tab.getD i none = some s := by
  rw [tab_entries, List.mem_filterMap] at h
  obtain ⟨o, ho, hid⟩ := h
  obtain ⟨i, hlt, hi⟩ := List.mem_iff_getElem.mp ho
  refine ⟨i, ?_⟩
  rw [List.getD_eq_getElem _ _ hlt, hi]
  exact hid

/-! ## Cyclic probe arithmetic -/

theorem cyc_fwd (cap idx t : Nat) :
    ((idx + t) % cap + 1) % cap = (idx + (t + 1)) % cap := by
  rw [Nat.mod_add_mod, Nat.add_assoc]

theorem cyc_home_dist (cap h0 i : Nat) (hh0 : h0 < cap) (hi : i < cap) :
    (h0 + (i + cap - h0) % cap) % cap = i := by
  rw [Nat.add_mod_mod]
  have h1 : h0 + (i + cap - h0) = i + cap := by omega
  rw [h1, Nat.add_mod_right, Nat.mod_eq_of_lt hi]

theorem cyc_dist (cap h0 t : Nat) (hh0 : h0 < cap) (ht : t < cap) :
    ((h0 + t) % cap + cap - h0) % cap = t := by
  by_cases hlt : h0 + t < cap
  · rw [Nat.mod_eq_of_lt hlt]
    have h1 : h0 + t + cap - h0 = t + cap := by omega
    rw [h1, Nat.add_mod_right, Nat.mod_eq_of_lt ht]
  · have h1 : (h0 + t) % cap = h0 + t - cap := by
      rw [Nat.mod_eq_sub_mod (by omega), Nat.mod_eq_of_lt (by omega)]
    rw [h1]
    have h2 : h0 + t - cap + cap - h0 = t := by omega
    rw [h2, Nat.mod_eq_of_lt ht]

theorem cyc_cover (cap idx j : Nat) (hidx : idx < cap) (hj : j < cap) :
    ∃ t, t < cap ∧ (idx + t) % cap = j :=
  ⟨(j + cap - idx) % cap, Nat.mod_lt _ (by omega),
    cyc_home_dist cap idx j hidx hj⟩

/-! ## Probe-loop specifications -/

theorem tab_find_go_some (tab : List Slot) (cap : Nat) (word : List Nat)
    (n h : Nat) :
    ∀ fuel idx j, idx < cap → tab_find_go tab cap word n h fuel idx = some j →
      ∃ t, t < fuel ∧ j = (idx + t) % cap ∧
        (∀ u, u < t → ∃ s, tab.getD ((idx + u) % cap) none = some s ∧
          slotMatches s word n h = false) ∧
        (tab.getD j none = none ∨
          ∃ s, tab.getD j none = some s ∧ slotMatches s word n h = true) := by
  intro fuel
  induction fuel with
  | zero => intro idx j _ hfind; exact Option.noConfusion hfind
  | succ fuel ih =>
    intro idx j hidx hfind
    have hcap : 0 < cap := by omega
    rw [tab_find_go] at hfind
    cases hslot : tab.getD idx none with
    | none =>
      simp only [hslot] at hfind
      injection hfind with hj
      subst hj
      exact ⟨0, by omega,
        by rw [Nat.add_zero, Nat.mod_eq_of_lt hidx],
        by intro u hu; omega, Or.inl hslot⟩
    | some s =>
      simp only [hslot] at hfind
      by_cases hm : slotMatches s word n h = true
      · rw [if_pos hm] at hfind
        injection hfind with hj
        subst hj
        exact ⟨0, by omega,
          by rw [Nat.add_zero, Nat.mod_eq_of_lt hidx],
          by intro u hu; omega, Or.inr ⟨s, hslot, hm⟩⟩
      · rw [if_neg hm] at hfind
        obtain ⟨t, htf, hj, hpath, hend⟩ :=
          ih ((idx + 1) % cap) j (Nat.mod_lt _ hcap) hfind
        refine ⟨t + 1, by omega, ?_, ?_, hend⟩
        · rw [hj, Nat.mod_add_mod]
          congr 1
          omega
        · intro u hu
          cases u with
          | zero =>
            refine ⟨s, ?_, by simpa using hm⟩
            rwa [Nat.add_zero, Nat.mod_eq_of_lt hidx]
          | succ u' =>
            have := hpath u' (by omega)
            rwa [Nat.mod_add_mod, show idx + 1 + u' = idx + (u' + 1) by omega]
              at this

theorem tab_find_go_none (tab : List Slot) (cap : Nat) (word : List Nat)
    (n h : Nat) :
    ∀ fuel idx, idx < cap → tab_find_go tab cap word n h fuel idx = none →
      ∀ t, t < fuel → ∃ s, tab.getD ((idx + t) % cap) none = some s ∧
        slotMatches s word n h = false := by
  intro fuel
  induction fuel with
  | zero => intro idx _ _ t ht; omega
  | succ fuel ih =>
    intro idx hidx hfind t ht
    have hcap : 0 < cap := by omega
    rw [tab_find_go] at hfind
    cases hslot : tab.getD idx none with
    | none => simp only [hslot] at hfind; exact Option.noConfusion hfind
    | some s =>
      simp only [hslot] at hfind
      by_cases hm : slotMatches s word n h = true
      · rw [if_pos hm] at hfind; exact Option.noConfusion hfind
      · rw [if_neg hm] at hfind
        cases t with
        | zero =>
          refine ⟨s, ?_, by simpa using hm⟩
          rwa [Nat.add_zero, Nat.mod_eq_of_lt hidx]
        | succ t' =>
          have := ih ((idx + 1) % cap) (Nat.mod_lt _ hcap) hfind t' (by omega)
          rwa [Nat.mod_add_mod, show idx + 1 + t' = idx + (t' + 1) by omega]
            at this

theorem place_go_some (ntab : List Slot) (nc : Nat) :
    ∀ fuel idx j, idx < nc → place_go ntab nc fuel idx = some j →
      ∃ t, t < fuel ∧ j = (idx + t) % nc ∧
        (∀ u, u < t → Occ ntab ((idx + u) % nc)) ∧
        ntab.getD j none = none := by
  intro fuel
  induction fuel with
  | zero => intro idx j _ hp; exact Option.noConfusion hp
  | succ fuel ih =>
    intro idx j hidx hp
    have hcap : 0 < nc := by omega
    rw [place_go] at hp
    cases hslot : ntab.getD idx none with
    | none =>
      simp only [hslot] at hp
      injection hp with hj
      subst hj
      exact ⟨0, by omega,
        by rw [Nat.add_zero, Nat.mod_eq_of_lt hidx],
        by intro u hu; omega, hslot⟩
    | some s =>
      simp only [hslot] at hp
      obtain ⟨t, htf, hj, hpath, hend⟩ := ih ((idx + 1) % nc) j (Nat.mod_lt _ hcap) hp
      refine ⟨t + 1, by omega, ?_, ?_, hend⟩
      · rw [hj, Nat.mod_add_mod]
        congr 1
        omega
      · intro u hu
        cases u with
        | zero =>
          rw [show (idx + 0) % nc = idx from by rw [Nat.add_zero, Nat.mod_eq_of_lt hidx]]
          simp only [Occ, hslot, Option.isSome_some]
        | succ u' =>
          have := hpath u' (by omega)
          rwa [Nat.mod_add_mod, show idx + 1 + u' = idx + (u' + 1) by omega]
            at this

theorem place_go_none (ntab : List Slot) (nc : Nat) :
    ∀ fuel idx, idx < nc → place_go ntab nc fuel idx = none →
      ∀ t, t < fuel → Occ ntab ((idx + t) % nc) := by
  intro fuel
  induction fuel with
  | zero => intro idx _ _ t ht; omega
  | succ fuel ih =>
    intro idx hidx hp t ht
    have hcap : 0 < nc := by omega
    rw [place_go] at hp
    cases hslot : ntab.getD idx none with
    | none => simp only [hslot] at hp; exact Option.noConfusion hp
    | some s =>
      simp only [hslot] at hp
      cases t with
      | zero =>
        rw [show (idx + 0) % nc = idx from by rw [Nat.add_zero, Nat.mod_eq_of_lt hidx]]
        simp only [Occ, hslot, Option.isSome_some]
      | succ t' =>
        have := ih ((idx + 1) % nc) (Nat.mod_lt _ hcap) hp t' (by omega)
        rwa [Nat.mod_add_mod, show idx + 1 + t' = idx + (t' + 1) by omega]
          at this

/-! ## Slot and table lemmas -/

theorem SlotWF.key_length {seed maxw : Nat} {s : SlotData}
    (wf : SlotWF seed maxw s) : s.key.length = s.n := by
  have hlen := congrArg List.length wf.word_eq
  have htake : (s.word.take s.n).length = min s.n s.word.length :=
    List.length_take _ _
  simp only [List.length_append, List.length_cons, List.length_nil] at hlen
  simp only [SlotData.key]
  omega

theorem SlotWF.word_length {seed maxw : Nat} {s : SlotData}
    (wf : SlotWF seed maxw s) : s.word.length = s.n + 1 := by
  have hk := wf.key_length
  have hlen := congrArg List.length wf.word_eq
  simp only [List.length_append, List.length_cons, List.length_nil] at hlen
  simp only [SlotData.key] at hk
  omega

/-- A slot matching a probe for key `k` stores exactly `k`. -/
theorem slotMatches_key {s : SlotData} {k : List Nat} {h : Nat}
    (hm : slotMatches s k k.length h = true) : s.key = k ∧ s.n = k.length := by
  simp only [slotMatches, Bool.and_eq_true, decide_eq_true_eq] at hm
  obtain ⟨⟨_, hn⟩, hw⟩ := hm
  rw [List.take_length] at hw
  refine ⟨?_, hn⟩
  rw [SlotData.key, hn, hw]

/-- Under well-formedness the converse holds: a slot storing `k`
matches the probe for `k`. -/
theorem slotMatches_of_key {seed maxw : Nat} {s : SlotData} {k : List Nat}
    (wf : SlotWF seed maxw s) (hk : s.key = k) :
    slotMatches s k k.length (fnv32 k seed) = true := by
  have hn : s.n = k.length := by rw [← hk, wf.key_length]
  simp only [slotMatches, Bool.and_eq_true, decide_eq_true_eq]
  refine ⟨⟨?_, hn⟩, ?_⟩
  · rw [wf.hash_eq, ← SlotData.key, hk, fnv32_mod]
  · rw [List.take_length, ← hn, ← SlotData.key, hk]

theorem getD_set_self (tab : List Slot) (j : Nat) (v : Slot)
    (hj : j < tab.length) : (tab.set j v).getD j none = v := by
  rw [List.getD_eq_getD_get?, List.get?_set_eq_of_lt _ hj]
  rfl

theorem getD_set_ne (tab : List Slot) (i j : Nat) (v : Slot)
    (hne : j ≠ i) : (tab.set j v).getD i none = tab.getD i none := by
  rw [List.getD_eq_getD_get?, List.get?_set_ne _ _ hne, ← List.getD_eq_getD_get?]

theorem occ_set_some (tab : List Slot) (i j : Nat) (s : SlotData)
    (hocc : Occ tab i) : Occ (tab.set j (some s)) i := by
  by_cases hij : j = i
  · subst hij
    have hj : j < tab.length := by
      by_contra hc
      rw [Occ, getD_none_of_le tab j (not_lt.mp hc)] at hocc
      simp at hocc
    rw [Occ, getD_set_self tab j _ hj]
    rfl
  · rwa [Occ, getD_set_ne tab i j _ hij]

/-- Distinct occupied slots store distinct keys. -/
theorem distinct_keys_getD {seed maxw cap : Nat} {tab : List Slot}
    (twf : TabWF seed maxw cap tab) {i j : Nat} {s1 s2 : SlotData}
    (h1 : tab.getD i none = some s1) (h2 : tab.getD j none = some s2)
    (hij : i ≠ j) : s1.key ≠ s2.key := by
  have key_ne : ∀ a b : Nat, a < b → ∀ x y : SlotData,
      tab.getD a none = some x → tab.getD b none = some y → x.key ≠ y.key := by
    intro a b hab x y hx hy
    have hb := getD_some_lt tab b y hy
    have hmx : x ∈ tab_entries (tab.take b) := by
      refine mem_entries_of_getD _ a x ?_
      rw [List.getD_eq_getD_get?, List.get?_eq_getElem?, List.getElem?_take,
        if_pos hab, ← List.get?_eq_getElem?, ← List.getD_eq_getD_get?]
      exact hx
    have hdec := tab_entries_decomp tab b hb
    rw [hy, show ((some y : Slot)).toList = [y] from rfl,
      List.append_assoc, List.singleton_append] at hdec
    have hpw := twf.nodup
    rw [hdec] at hpw
    have := (List.pairwise_append.mp hpw).2.2
    exact this x hmx y (by simp)
  rcases Nat.lt_or_ge i j with hlt | hge
  · exact key_ne i j hlt s1 s2 h1 h2
  · have hlt : j < i := by omega
    exact fun hk => (key_ne j i hlt s2 s1 h2 h1) hk.symm

/-- A fully occupied table has as many entries as slots. -/
theorem all_occ_entries_len (tab : List Slot)
    (h : ∀ i, i < tab.length → Occ tab i) :
    (tab_entries tab).length = tab.length := by
  induction tab with
  | nil => rfl
  | cons x xs ih =>
    have h0 := h 0 (by simp)
    rw [Occ] at h0
    cases x with
    | none => simp at h0
    | some s =>
      have hall : ∀ i, i < xs.length → Occ xs i := by
        intro i hi
        have := h (i + 1) (by simp; omega)
        rwa [Occ, List.getD_cons_succ] at this
      rw [tab_entries_cons_some, List.length_cons, List.length_cons, ih hall]

theorem entries_len_le (tab : List Slot) :
    (tab_entries tab).length ≤ tab.length :=
  List.length_filterMap_le _ _

/-- `rehash` is `place_list` over the occupied slots. -/
theorem rehash_eq_place_list (old : List Slot) (nc : Nat) :
    rehash old nc = place_list nc (List.replicate nc none) (tab_entries old) := by
  suffices h : ∀ (l : List Slot) (acc : List Slot),
      l.foldl
        (fun acc os =>
          match acc, os with
          | none, _ => none
          | some ntab, none => some ntab
          | some ntab, some s => place_slot ntab nc s)
        (some acc) = place_list nc acc (tab_entries l) by
    exact h old _
  intro l
  induction l with
  | nil => intro acc; rfl
  | cons x xs ih =>
    intro acc
    cases x with
    | none =>
      rw [tab_entries_cons_none, List.foldl_cons]
      exact ih acc
    | some s =>
      simp only [List.foldl_cons]
      cases hp : place_slot acc nc s with
      | none =>
        have hnone : ∀ (l' : List Slot),
            l'.foldl
              (fun acc os =>
                match acc, os with
                | none, _ => none
                | some ntab, none => some ntab
                | some ntab, some s => place_slot ntab nc s)
              none = none := by
          intro l'
          induction l' with
          | nil => rfl
          | cons y ys ihy => simpa using ihy
        rw [tab_entries_cons_some]
        simp only [place_list, hp]
        exact hnone xs
      | some ntab' =>
        rw [tab_entries_cons_some]
        simp only [place_list, hp]
        exact ih ntab'

theorem getD_replicate (nc i : Nat) :
    (List.replicate nc (none : Slot)).getD i none = none := by
  rcases Nat.lt_or_ge i nc with h | h
  · rw [List.getD_eq_getElem _ _ (by simpa using h)]
    simp
  · exact getD_none_of_le _ _ (by simpa using h)

theorem pathOcc_mono {tab tab' : List Slot} {cap h0 i : Nat}
    (hmono : ∀ j, Occ tab j → Occ tab' j) (hp : pathOcc tab cap h0 i) :
    pathOcc tab' cap h0 i :=
  fun t ht => hmono _ (hp t ht)

/-- Placing one slot into a table that has room: it lands on an empty
slot, extends the entries by that slot, and preserves the probe
invariant. -/
theorem place_slot_spec (nc : Nat) (ntab : List Slot) (s : SlotData)
    (hlen : ntab.length = nc) (hpi : ProbeInv nc ntab)
    (hroom : (tab_entries ntab).length < nc) :
    ∃ ntab', place_slot ntab nc s = some ntab' ∧
      ntab'.length = nc ∧ ProbeInv nc ntab' ∧
      (tab_entries ntab').Perm (s :: tab_entries ntab) ∧
      (tab_entries ntab').length = (tab_entries ntab).length + 1 ∧
      (∀ j, Occ ntab j → Occ ntab' j) := by
  have hnc : 0 < nc := by omega
  have hh0 : home s.hash nc < nc := Nat.mod_lt _ hnc
  cases hpg : place_go ntab nc nc (home s.hash nc) with
  | none =>
    exfalso
    have hall : ∀ i, i < ntab.length → Occ ntab i := by
      intro i hi
      obtain ⟨t, htc, hteq⟩ := cyc_cover nc (home s.hash nc) i hh0 (hlen ▸ hi)
      have := place_go_none ntab nc nc (home s.hash nc) hh0 hpg t htc
      rwa [hteq] at this
    have := all_occ_entries_len ntab hall
    omega
  | some j =>
    obtain ⟨t, htc, hj, hpath, hempty⟩ :=
      place_go_some ntab nc nc (home s.hash nc) j hh0 hpg
    have hjlt : j < nc := by rw [hj]; exact Nat.mod_lt _ hnc
    have hjlen : j < ntab.length := hlen ▸ hjlt
    refine ⟨ntab.set j (some s), ?_, ?_, ?_, ?_, ?_, ?_⟩
    · rw [place_slot, hpg]; rfl
    · rw [List.length_set]; exact hlen
    · intro i' s' hi'
      have hmono := fun j' => occ_set_some ntab j' j s
      by_cases hij : j = i'
      · subst hij
        rw [getD_set_self ntab j _ hjlen] at hi'
        have hs2 : s = s' := by injection hi' with h
        subst hs2
        intro u hu
        rw [hj, cyc_dist nc (home s.hash nc) t hh0 htc] at hu
        exact hmono _ (hpath u hu)
      · rw [getD_set_ne ntab i' j _ hij] at hi'
        exact pathOcc_mono hmono (hpi i' s' hi')
    · rw [tab_entries_set ntab j hjlen, tab_entries_decomp ntab j hjlen, hempty]
      simp only [Option.toList_some, Option.toList_none, List.append_nil,
        List.nil_append]
      rw [List.append_assoc, List.singleton_append]
      exact List.perm_middle
    · rw [tab_entries_set ntab j hjlen, tab_entries_decomp ntab j hjlen, hempty]
      simp
      omega
    · exact fun j' => occ_set_some ntab j' j s

/-- Placing a list of slots into a table with enough room. -/
theorem place_list_spec (nc : Nat) :
    ∀ (ss : List SlotData) (ntab : List Slot),
      ntab.length = nc → ProbeInv nc ntab →
      (tab_entries ntab).length + ss.length ≤ nc →
      ∃ ntab', place_list nc ntab ss = some ntab' ∧
        ntab'.length = nc ∧ ProbeInv nc ntab' ∧
        (tab_entries ntab').Perm (ss ++ tab_entries ntab) := by
  intro ss
  induction ss with
  | nil =>
    intro ntab hlen hpi _
    exact ⟨ntab, rfl, hlen, hpi, by simp⟩
  | cons s ss' ih =>
    intro ntab hlen hpi hroom
    have hr : (tab_entries ntab).length < nc := by
      simp only [List.length_cons] at hroom; omega
    obtain ⟨ntab1, hp1, hlen1, hpi1, hperm1, hcnt1, _⟩ :=
      place_slot_spec nc ntab s hlen hpi hr
    have hroom1 : (tab_entries ntab1).length + ss'.length ≤ nc := by
      simp only [List.length_cons] at hroom; omega
    obtain ⟨ntab', hp', hlen', hpi', hperm'⟩ := ih ntab1 hlen1 hpi1 hroom1
    refine ⟨ntab', ?_, hlen', hpi', ?_⟩
    · rw [place_list, hp1]; exact hp'
    · refine hperm'.trans ?_
      refine (hperm1.append_left ss').trans ?_
      rw [List.cons_append]
      exact List.perm_middle

/-- `rehash` succeeds whenever the occupied slots fit in the new
table, and preserves the entries and the probe invariant. -/
theorem rehash_spec (old : List Slot) (nc : Nat)
    (hfit : (tab_entries old).length ≤ nc) :
    ∃ ntab, rehash old nc = some ntab ∧ ntab.length = nc ∧
      ProbeInv nc ntab ∧ (tab_entries ntab).Perm (tab_entries old) := by
  obtain ⟨ntab, hp, hlen, hpi, hperm⟩ :=
    place_list_spec nc (tab_entries old) (List.replicate nc none)
      (List.length_replicate nc none)
      (fun i s hi => absurd hi (by rw [getD_replicate]; exact Option.noConfusion))
      (by rw [tab_entries_replicate]; simpa using hfit)
  refine ⟨ntab, ?_, hlen, hpi, ?_⟩
  · rw [rehash_eq_place_list]; exact hp
  · rw [tab_entries_replicate, List.append_nil] at hperm
    exact hperm

theorem wc_xfree_fields (w : WC) (n : Nat) :
    (wc_xfree w n).tab = w.tab ∧ (wc_xfree w n).cap = w.cap ∧
    (wc_xfree w n).len = w.len ∧ (wc_xfree w n).tot = w.tot ∧
    (wc_xfree w n).maxw = w.maxw ∧ (wc_xfree w n).seed = w.seed ∧
    (wc_xfree w n).alloc.static_mode = w.alloc.static_mode ∧
    (wc_xfree w n).arena_tail = w.arena_tail ∧
    (wc_xfree w n).arena_rest = w.arena_rest ∧
    (wc_xfree w n).arena_block_sz = w.arena_block_sz := by
  rw [wc_xfree]
  split <;> exact ⟨rfl, rfl, rfl, rfl, rfl, rfl, rfl, rfl, rfl, rfl⟩

theorem wc_xmalloc_state_static {st st' : AllocState} {n : Nat}
    (h : wc_xmalloc_state st n = some st') :
    st'.static_mode = st.static_mode := by
  simp only [wc_xmalloc_state] at h
  repeat' split at h
  all_goals
    first
    | exact Option.noConfusion h
    | (injection h with h; rw [← h])

theorem wc_xmalloc_fields {w w' : WC} {n : Nat}
    (h : wc_xmalloc w n = some w') :
    w'.tab = w.tab ∧ w'.cap = w.cap ∧ w'.len = w.len ∧ w'.tot = w.tot ∧
    w'.maxw = w.maxw ∧ w'.seed = w.seed ∧
    w'.alloc.static_mode = w.alloc.static_mode ∧
    w'.arena_tail = w.arena_tail ∧ w'.arena_rest = w.arena_rest ∧
    w'.arena_block_sz = w.arena_block_sz := by
  obtain ⟨st, hst, hw'⟩ := Option.map_eq_some'.mp h
  have hsm : st.static_mode = w.alloc.static_mode := wc_xmalloc_state_static hst
  rw [← hw']
  exact ⟨rfl, rfl, rfl, rfl, rfl, rfl, hsm, rfl, rfl, rfl⟩

/-- If some slot stores key `k`, `tab_find` (probing with `k`'s own
hash) returns a slot storing `k` — never an empty slot. -/
theorem tab_find_present {w : WC} (twf : TabWF w.seed w.maxw w.cap w.tab)
    (hcap : 0 < w.cap) {k : List Nat} {i : Nat} {si : SlotData}
    (hi : w.tab.getD i none = some si) (hk : si.key = k) :
    ∃ j s, tab_find w k k.length (fnv32 k w.seed) = some j ∧
      w.tab.getD j none = some s ∧ s.key = k := by
  have hh0 : home (fnv32 k w.seed) w.cap < w.cap := Nat.mod_lt _ hcap
  have hilt : i < w.cap := twf.len_eq ▸ getD_some_lt _ _ _ hi
  have wf := twf.wf si (mem_entries_of_getD _ _ _ hi)
  have hm : slotMatches si k k.length (fnv32 k w.seed) = true :=
    slotMatches_of_key wf hk
  have hhome : home si.hash w.cap = home (fnv32 k w.seed) w.cap := by
    rw [wf.hash_eq, ← SlotData.key, hk]
  have hpath : pathOcc w.tab w.cap (home (fnv32 k w.seed) w.cap) i :=
    hhome ▸ twf.probe i si hi
  have hdc : (i + w.cap - home (fnv32 k w.seed) w.cap) % w.cap < w.cap :=
    Nat.mod_lt _ hcap
  have hid : (home (fnv32 k w.seed) w.cap +
      (i + w.cap - home (fnv32 k w.seed) w.cap) % w.cap) % w.cap = i :=
    cyc_home_dist w.cap _ i hh0 hilt
  cases hfind : tab_find w k k.length (fnv32 k w.seed) with
  | none =>
    exfalso
    rw [tab_find] at hfind
    obtain ⟨s', hs', hnm⟩ :=
      tab_find_go_none w.tab w.cap k k.length (fnv32 k w.seed) w.cap
        (home (fnv32 k w.seed) w.cap) hh0 hfind _ hdc
    rw [hid, hi] at hs'
    injection hs' with hs'
    rw [← hs', hm] at hnm
    exact Bool.noConfusion hnm
  | some j =>
    rw [tab_find] at hfind
    obtain ⟨t, htc, hj, hpth, hend⟩ :=
      tab_find_go_some w.tab w.cap k k.length (fnv32 k w.seed) w.cap
        (home (fnv32 k w.seed) w.cap) j hh0 hfind
    cases hend with
    | inr hmatch =>
      obtain ⟨s, hs, hsm⟩ := hmatch
      obtain ⟨hskey, _⟩ := slotMatches_key hsm
      exact ⟨j, s, rfl, hs, hskey⟩
    | inl hempty =>
      exfalso
      rcases Nat.lt_trichotomy t
        ((i + w.cap - home (fnv32 k w.seed) w.cap) % w.cap) with hlt | heq | hgt
      · have hocc : Occ w.tab ((home (fnv32 k w.seed) w.cap + t) % w.cap) :=
          hpath t hlt
        rw [← hj, Occ, hempty] at hocc
        exact Bool.noConfusion hocc
      · rw [hj, heq, hid, hi] at hempty
        exact Option.noConfusion hempty
      · obtain ⟨s', hs', hnm⟩ := hpth _ hgt
        rw [hid, hi] at hs'
        injection hs' with hs'
        rw [← hs', hm] at hnm
        exact Bool.noConfusion hnm

/-- When `tab_find` answers with an empty slot, the probed key is
stored nowhere in the table. -/
theorem key_absent_of_find_empty {w : WC}
    (twf : TabWF w.seed w.maxw w.cap w.tab) (hcap : 0 < w.cap)
    {k : List Nat} {j : Nat}
    (hfind : tab_find w k k.length (fnv32 k w.seed) = some j)
    (hempty : w.tab.getD j none = none) :
    ∀ s ∈ tab_entries w.tab, s.key ≠ k := by
  intro s hs hk
  obtain ⟨i, hi⟩ := entries_mem_getD hs
  obtain ⟨j', s', hfind', hj', _⟩ := tab_find_present twf hcap hi hk
  rw [hfind] at hfind'
  injection hfind' with hjj
  rw [← hjj, hempty] at hj'
  exact Option.noConfusion hj'

/-- `tab_grow` on an invariant-satisfying counter: capacity doubles,
the strict 0.7 load bound is restored, the stored entries are
preserved up to arrangement, and everything else is untouched. -/
theorem tab_grow_spec {w : WC} (hInv : Inv w) {w' : WC}
    (hg : tab_grow w = some w') :
    Inv w' ∧ w'.cap = w.cap * 2 ∧ w'.len * 10 < w'.cap * 7 ∧
      (tab_entries w'.tab).Perm (tab_entries w.tab) ∧
      w'.len = w.len ∧ w'.tot = w.tot ∧ w'.maxw = w.maxw ∧
      w'.seed = w.seed ∧ w'.alloc.static_mode = w.alloc.static_mode ∧
      w'.arena_tail = w.arena_tail ∧ w'.arena_rest = w.arena_rest ∧
      w'.arena_block_sz = w.arena_block_sz := by
  rw [tab_grow] at hg
  by_cases h1 : mul_overflows w.cap 2 = true
  · rw [if_pos h1] at hg; exact Option.noConfusion hg
  rw [if_neg h1] at hg
  by_cases h2 : mul_overflows (w.cap * 2) sizeofSlot = true
  · rw [if_pos h2] at hg; exact Option.noConfusion hg
  rw [if_neg h2] at hg
  cases hx : wc_xmalloc w (w.cap * 2 * sizeofSlot) with
  | none => rw [hx] at hg; exact Option.noConfusion hg
  | some w1 =>
    rw [hx] at hg
    have hcapmin := hInv.cap_min
    rw [WC_MIN_INIT_CAP] at hcapmin
    have hload := hInv.load
    have hocc := hInv.occ_len
    have hfit : (tab_entries w.tab).length ≤ w.cap * 2 := by omega
    obtain ⟨ntab, hrh, hlen, hpi, hperm⟩ := rehash_spec w.tab (w.cap * 2) hfit
    rw [hrh] at hg
    injection hg with hg'
    obtain ⟨hm_tab, hm_cap, hm_len, hm_tot, hm_maxw, hm_seed, hm_static,
      hm_atail, hm_arest, hm_ablk⟩ := wc_xmalloc_fields hx
    obtain ⟨hf_tab, hf_cap, hf_len, hf_tot, hf_maxw, hf_seed, hf_static,
      hf_atail, hf_arest, hf_ablk⟩ :=
      wc_xfree_fields { w1 with tab := ntab, cap := w.cap * 2 }
        (w.cap * sizeofSlot)
    rw [hg'] at hf_tab hf_cap hf_len hf_tot hf_maxw
    rw [hg'] at hf_seed hf_static hf_atail hf_arest hf_ablk
    have htab' : w'.tab = ntab := hf_tab
    have hcap' : w'.cap = w.cap * 2 := hf_cap
    have hlen' : w'.len = w.len := by rw [hf_len]; exact hm_len
    have htot' : w'.tot = w.tot := by rw [hf_tot]; exact hm_tot
    have hmaxw' : w'.maxw = w.maxw := by rw [hf_maxw]; exact hm_maxw
    have hseed' : w'.seed = w.seed := by rw [hf_seed]; exact hm_seed
    have hstatic' : w'.alloc.static_mode = w.alloc.static_mode := by
      rw [hf_static]; exact hm_static
    have hperm' : (tab_entries w'.tab).Perm (tab_entries w.tab) := by
      rw [htab']; exact hperm
    refine ⟨⟨⟨?_, ?_, ?_, ?_⟩, ?_, ?_, ?_, ?_, ?_, ?_, ?_, ?_⟩, hcap', ?_,
      hperm', hlen', htot', hmaxw', hseed', hstatic', ?_, ?_, ?_⟩
    · rw [htab', hcap']; exact hlen
    · intro s hs
      have hmem : s ∈ tab_entries w.tab := hperm'.mem_iff.mp hs
      rw [hseed', hmaxw']
      exact hInv.twf.wf s hmem
    · rw [htab']
      exact (hperm.pairwise_iff (fun hab => Ne.symm hab)).mpr hInv.twf.nodup
    · rw [htab', hcap']; exact hpi
    · obtain ⟨kk, hk⟩ := hInv.cap_pow
      exact ⟨kk + 1, by rw [hcap', hk]; ring⟩
    · rw [hcap', WC_MIN_INIT_CAP]; omega
    · rw [hcap', hlen']; omega
    · rw [htab', hlen', hperm.length_eq]
      exact hInv.occ_len
    · rw [htot', htab']
      have hps := (hperm.map SlotData.cnt).sum_eq
      rw [hps]
      exact hInv.tot_sum
    · rw [hseed']; exact hInv.seed_lt
    · rw [hmaxw']; exact hInv.maxw_pos
    · rw [hmaxw']; exact hInv.maxw_le
    · rw [hcap', hlen']; omega
    · rw [hf_atail]; exact hm_atail
    · rw [hf_arest]; exact hm_arest
    · rw [hf_ablk]; exact hm_ablk

theorem occ_set_over_some {tab : List Slot} {j : Nat} {s0 s : SlotData}
    (hj : tab.getD j none = some s0) (i : Nat) :
    Occ (tab.set j (some s)) i ↔ Occ tab i := by
  by_cases hij : j = i
  · subst hij
    have hjl := getD_some_lt tab j s0 hj
    rw [Occ, Occ, getD_set_self tab j _ hjl, hj]
    exact Iff.rfl
  · rw [Occ, Occ, getD_set_ne tab i j _ hij]

theorem pairwise_key_replace {A B : List SlotData} {s s' : SlotData}
    (hk : s'.key = s.key)
    (hp : (A ++ s :: B).Pairwise (fun a b => a.key ≠ b.key)) :
    (A ++ s' :: B).Pairwise (fun a b => a.key ≠ b.key) := by
  rw [List.pairwise_append] at hp ⊢
  obtain ⟨hA, hsB, hcross⟩ := hp
  rw [List.pairwise_cons] at hsB ⊢
  refine ⟨hA, ⟨?_, hsB.2⟩, ?_⟩
  · intro b hb
    rw [hk]
    exact hsB.1 b hb
  · intro a ha b hb
    rcases List.mem_cons.mp hb with hb' | hb'
    · rw [hb', hk]
      exact hcross a ha s (List.mem_cons_self _ _)
    · exact hcross a ha b (List.mem_cons_of_mem _ hb')

theorem arena_alloc_fields {w w' : WC} {sz : Nat}
    (h : arena_alloc w sz = some w') :
    w'.tab = w.tab ∧ w'.cap = w.cap ∧ w'.len = w.len ∧ w'.tot = w.tot ∧
    w'.maxw = w.maxw ∧ w'.seed = w.seed ∧
    w'.alloc.static_mode = w.alloc.static_mode := by
  rw [arena_alloc] at h
  split at h
  · injection h with h
    rw [← h]
    exact ⟨rfl, rfl, rfl, rfl, rfl, rfl, rfl⟩
  · split at h
    · exact Option.noConfusion h
    · split at h
      · exact Option.noConfusion h
      · simp only [block_new] at h
        split at h <;>
        · split at h
          · simp at h
          · obtain ⟨p, hp, hw'⟩ := Option.map_eq_some'.mp h
            obtain ⟨w2, hw2, hpair⟩ := Option.map_eq_some'.mp hp
            obtain ⟨htab, hcap, hlen, htot, hmaxw, hseed, hstatic, _, _, _⟩ :=
              wc_xmalloc_fields hw2
            have hp1 : p.1 = w2 := by rw [← hpair]
            rw [← hw', hp1]
            exact ⟨htab, hcap, hlen, htot, hmaxw, hseed, hstatic⟩

theorem mkSlot_key (seed : Nat) (k : List Nat) (c : Nat) :
    (mkSlot seed k c).key = k := by
  rw [mkSlot, SlotData.key]
  exact List.take_left' rfl

theorem mkSlot_wf (seed maxw : Nat) (k : List Nat) (c : Nat)
    (hk1 : 1 ≤ k.length) (hk2 : k.length ≤ maxw) (hc : 1 ≤ c)
    (hk0 : ∀ b ∈ k, b ≠ 0) : SlotWF seed maxw (mkSlot seed k c) := by
  have htl : ((k ++ [0]).take k.length) = k := List.take_left' rfl
  refine ⟨?_, ?_, hk1, hk2, hc, ?_⟩
  · simp only [mkSlot, htl]
  · simp only [mkSlot, htl]
  · simp only [mkSlot, htl]
    exact hk0

/-- Effect and invariance of the probe-and-place part of `tab_insert`,
on a state whose load factor is strictly below 0.7.  A failure in this
part leaves the counter exactly as it was. -/
theorem tab_insert_found_spec {w1 : WC} (hInv1 : Inv w1)
    (hstrict : w1.len * 10 < w1.cap * 7)
    {key : List Nat} {ok : Bool} {w' : WC}
    (hk1 : 1 ≤ key.length) (hk2 : key.length ≤ w1.maxw)
    (hk0 : ∀ b ∈ key, b ≠ 0)
    (hr : tab_insert_found w1 key key.length (fnv32 key w1.seed) = (ok, w')) :
    Inv w' ∧ w'.seed = w1.seed ∧ w'.maxw = w1.maxw ∧
      w'.alloc.static_mode = w1.alloc.static_mode ∧
      (ok = true → w'.tot = w1.tot + 1 ∧
        (∀ k', keyCount w'.tab k' =
          keyCount w1.tab k' + (if k' = key then 1 else 0)) ∧
        (∀ k', k' ∈ tab_keys w'.tab ↔ k' ∈ tab_keys w1.tab ∨ k' = key)) ∧
      (ok = false → w' = w1) := by
  have hcap0 : 0 < w1.cap := by
    have := hInv1.cap_min
    rw [WC_MIN_INIT_CAP] at this
    omega
  rw [tab_insert_found] at hr
  cases hfind : tab_find w1 key key.length (fnv32 key w1.seed) with
  | none =>
    rw [hfind] at hr
    injection hr with hok hw'
    subst hw'
    rw [← hok]
    exact ⟨hInv1, rfl, rfl, rfl, fun hc => Bool.noConfusion hc, fun _ => rfl⟩
  | some idx =>
    rw [hfind] at hr
    have hfind0 := hfind
    rw [tab_find] at hfind
    obtain ⟨t, htc, hj, hpth, hend⟩ :=
      tab_find_go_some w1.tab w1.cap key key.length (fnv32 key w1.seed)
        w1.cap (home (fnv32 key w1.seed) w1.cap) idx (Nat.mod_lt _ hcap0) hfind
    have hidxcap : idx < w1.cap := by rw [hj]; exact Nat.mod_lt _ hcap0
    have hidxlt : idx < w1.tab.length := hInv1.twf.len_eq ▸ hidxcap
    cases hslot : w1.tab.getD idx none with
    | some s =>
      simp only [hslot] at hr
      have hm : slotMatches s key key.length (fnv32 key w1.seed) = true := by
        cases hend with
        | inl he => rw [hslot] at he; exact Option.noConfusion he
        | inr hm' =>
          obtain ⟨s2, hs2, hm2⟩ := hm'
          rw [hslot] at hs2
          injection hs2 with hs2
          rw [hs2]
          exact hm2
      obtain ⟨hskey, hsn⟩ := slotMatches_key hm
      injection hr with hok hw'
      subst hw'
      rw [← hok]
      have hdec := tab_entries_decomp w1.tab idx hidxlt
      rw [hslot] at hdec
      have hset := tab_entries_set w1.tab idx hidxlt
        (some { s with cnt := s.cnt + 1 })
      simp only [Option.toList_some] at hdec hset
      have hkeynew : ({ s with cnt := s.cnt + 1 } : SlotData).key = s.key := rfl
      have hwf_s := hInv1.twf.wf s (mem_entries_of_getD _ _ _ hslot)
      have hmem_of : ∀ x : SlotData,
          x ∈ tab_entries (w1.tab.set idx (some { s with cnt := s.cnt + 1 })) →
          x ∈ tab_entries w1.tab ∨ x = { s with cnt := s.cnt + 1 } := by
        intro x hx
        rw [hset] at hx
        rcases List.mem_append.mp hx with hx' | hx'
        · rcases List.mem_append.mp hx' with hx'' | hx''
          · refine Or.inl ?_
            rw [hdec]
            exact List.mem_append.mpr (Or.inl (List.mem_append.mpr (Or.inl hx'')))
          · exact Or.inr (by simpa using hx'')
        · refine Or.inl ?_
          rw [hdec]
          exact List.mem_append.mpr (Or.inr hx')
      refine ⟨⟨⟨?_, ?_, ?_, ?_⟩, ?_, ?_, ?_, ?_, ?_, ?_, ?_, ?_⟩,
        rfl, rfl, rfl, ?_, fun hc => Bool.noConfusion hc⟩
      · simpa using hInv1.twf.len_eq
      · intro x hx
        rcases hmem_of x hx with hmem | hxs
        · exact hInv1.twf.wf x hmem
        · subst hxs
          refine ⟨hwf_s.word_eq, hwf_s.hash_eq, hwf_s.npos, hwf_s.nle, ?_,
            hwf_s.key_nonul⟩
          show 1 ≤ s.cnt + 1
          omega
      · have hnd := hInv1.twf.nodup
        rw [hdec, List.append_assoc, List.singleton_append] at hnd
        show (tab_entries (w1.tab.set idx (some { s with cnt := s.cnt + 1 }))).Pairwise _
        rw [hset, List.append_assoc, List.singleton_append]
        exact pairwise_key_replace hkeynew hnd
      · intro i' s'' hi'
        simp only at hi'
        have hocc_iff := occ_set_over_some (s := { s with cnt := s.cnt + 1 }) hslot
        by_cases hii : idx = i'
        · subst hii
          rw [getD_set_self w1.tab idx _ hidxlt] at hi'
          injection hi' with hi'
          rw [← hi']
          have hpo := hInv1.twf.probe idx s hslot
          exact pathOcc_mono (fun j hj' => (hocc_iff j).mpr hj') hpo
        · rw [getD_set_ne w1.tab i' idx _ hii] at hi'
          have hpo := hInv1.twf.probe i' s'' hi'
          exact pathOcc_mono (fun j hj' => (hocc_iff j).mpr hj') hpo
      · exact hInv1.cap_pow
      · exact hInv1.cap_min
      · show w1.len * 10 < w1.cap * 7 + 10
        omega
      · have h1 := hInv1.occ_len
        rw [hdec] at h1
        show (tab_entries (w1.tab.set idx (some { s with cnt := s.cnt + 1 }))).length = w1.len
        rw [hset]
        simp only [List.length_append] at h1 ⊢
        simpa using h1
      · have h1 := hInv1.tot_sum
        rw [hdec] at h1
        show ((tab_entries (w1.tab.set idx (some { s with cnt := s.cnt + 1 }))).map SlotData.cnt).sum = w1.tot + 1
        rw [hset]
        simp only [List.map_append, List.sum_append, List.map_cons,
          List.sum_cons, List.map_nil, List.sum_nil] at h1 ⊢
        omega
      · exact hInv1.seed_lt
      · exact hInv1.maxw_pos
      · exact hInv1.maxw_le
      · intro _
        refine ⟨rfl, ?_, ?_⟩
        · intro k'
          show keyCount (w1.tab.set idx (some { s with cnt := s.cnt + 1 })) k' = _
          rw [keyCount, keyCount, hset, hdec]
          simp only [List.map_append, List.sum_append, List.map_cons,
            List.sum_cons, List.map_nil, List.sum_nil, hkeynew]
          by_cases hkk : k' = key
          · subst hkk
            rw [hskey]
            simp
            omega
          · rw [if_neg hkk]
            have hne : ¬ s.key = k' := by
              rw [hskey]
              exact fun hc => hkk hc.symm
            rw [if_neg hne, if_neg hne]
            omega
        · intro k'
          show k' ∈ tab_keys (w1.tab.set idx (some { s with cnt := s.cnt + 1 })) ↔ _
          rw [tab_keys, tab_keys, hset, hdec]
          simp only [List.map_append, List.map_cons, List.map_nil, hkeynew]
          constructor
          · intro hmem
            exact Or.inl hmem
          · intro hmem
            rcases hmem with hmem | hmem
            · exact hmem
            · subst hmem
              refine List.mem_append.mpr (Or.inl ?_)
              refine List.mem_append.mpr (Or.inr ?_)
              simp [hskey]
    | none =>
      simp only [hslot] at hr
      have hov : add_overflows key.length 1 = false := by
        rw [add_overflows]
        have := hInv1.maxw_le
        rw [WC_MAX_WORD] at this
        simp only [SIZE_MAX, decide_eq_false_iff_not, not_lt]
        omega
      rw [hov] at hr
      simp only [Bool.false_eq_true, if_false] at hr
      cases harena : arena_alloc w1 (key.length + 1) with
      | none =>
        rw [harena] at hr
        injection hr with hok hw'
        subst hw'
        rw [← hok]
        exact ⟨hInv1, rfl, rfl, rfl, fun hc => Bool.noConfusion hc, fun _ => rfl⟩
      | some w2 =>
        rw [harena] at hr
        injection hr with hok hw'
        subst hw'
        rw [← hok]
        obtain ⟨h2tab, h2cap, h2len, h2tot, h2maxw, h2seed, h2static⟩ :=
          arena_alloc_fields harena
        have htake : key.take key.length = key := List.take_length key
        have hmod : fnv32 key w1.seed % MASK32 = fnv32 key w1.seed :=
          Nat.mod_eq_of_lt (fnv32_lt key w1.seed)
        have hrec : ({ word := key.take key.length ++ [0], n := key.length, cnt := 1, hash := fnv32 key w1.seed % MASK32 } : SlotData) = mkSlot w1.seed key 1 := by
          rw [mkSlot, htake, hmod]
        rw [hrec]
        have habsent : ∀ x ∈ tab_entries w1.tab, x.key ≠ key :=
          key_absent_of_find_empty hInv1.twf hcap0 hfind0 hslot
        have hkey_new : (mkSlot w1.seed key 1).key = key := mkSlot_key _ _ _
        have hcnt_new : (mkSlot w1.seed key 1).cnt = 1 := rfl
        have hwf_new : SlotWF w1.seed w1.maxw (mkSlot w1.seed key 1) :=
          mkSlot_wf w1.seed w1.maxw key 1 hk1 hk2 (le_refl 1) hk0
        have hidxlt2 : idx < w2.tab.length := by rw [h2tab]; exact hidxlt
        have hdec := tab_entries_decomp w1.tab idx hidxlt
        rw [hslot] at hdec
        simp only [Option.toList_none, List.append_nil] at hdec
        have hset := tab_entries_set w2.tab idx hidxlt2 (some (mkSlot w1.seed key 1))
        rw [h2tab] at hset
        simp only [Option.toList_some] at hset
        have hmem_of : ∀ x : SlotData, x ∈ tab_entries (w1.tab.set idx (some (mkSlot w1.seed key 1))) → x ∈ tab_entries w1.tab ∨ x = mkSlot w1.seed key 1 := by
          intro x hx
          rw [hset] at hx
          rcases List.mem_append.mp hx with hx' | hx'
          · rcases List.mem_append.mp hx' with hx'' | hx''
            · refine Or.inl ?_
              rw [hdec]
              exact List.mem_append.mpr (Or.inl hx'')
            · exact Or.inr (by simpa using hx'')
          · refine Or.inl ?_
            rw [hdec]
            exact List.mem_append.mpr (Or.inr hx')
        refine ⟨⟨⟨?_, ?_, ?_, ?_⟩, ?_, ?_, ?_, ?_, ?_, ?_, ?_, ?_⟩,
          by simpa using h2seed, by simpa using h2maxw,
          by simpa using h2static, ?_, fun hc => Bool.noConfusion hc⟩
        · show (w2.tab.set idx (some (mkSlot w1.seed key 1))).length = w2.cap
          rw [List.length_set, h2tab, h2cap]
          exact hInv1.twf.len_eq
        · intro x hx
          simp only [h2tab, h2seed, h2maxw] at hx ⊢
          rcases hmem_of x hx with hmem | hxs
          · exact hInv1.twf.wf x hmem
          · subst hxs
            exact hwf_new
        · show (tab_entries (w2.tab.set idx (some (mkSlot w1.seed key 1)))).Pairwise (fun a b => a.key ≠ b.key)
          rw [h2tab, hset, List.append_assoc, List.singleton_append,
            List.pairwise_append]
          have hnd := hInv1.twf.nodup
          rw [hdec, List.pairwise_append] at hnd
          refine ⟨hnd.1, ?_, ?_⟩
          · rw [List.pairwise_cons]
            refine ⟨?_, hnd.2.1⟩
            intro b hb
            rw [hkey_new]
            have hbmem : b ∈ tab_entries w1.tab := by
              rw [hdec]
              exact List.mem_append.mpr (Or.inr hb)
            exact fun hc => habsent b hbmem hc.symm
          · intro a ha b hb
            rcases List.mem_cons.mp hb with hb' | hb'
            · rw [hb', hkey_new]
              have hamem : a ∈ tab_entries w1.tab := by
                rw [hdec]
                exact List.mem_append.mpr (Or.inl ha)
              exact habsent a hamem
            · exact hnd.2.2 a ha b hb'
        · intro i' s'' hi'
          simp only [h2tab, h2cap] at hi' ⊢
          by_cases hii : idx = i'
          · subst hii
            rw [getD_set_self w1.tab idx _ hidxlt] at hi'
            injection hi' with hi'
            rw [← hi']
            have hhome_new : home (mkSlot w1.seed key 1).hash w1.cap =
                home (fnv32 key w1.seed) w1.cap := rfl
            rw [hhome_new]
            intro u hu
            rw [hj, cyc_dist w1.cap (home (fnv32 key w1.seed) w1.cap) t
              (Nat.mod_lt _ hcap0) htc] at hu
            obtain ⟨sx, hsx, _⟩ := hpth u hu
            refine occ_set_some w1.tab _ idx _ ?_
            rw [Occ, hsx]
            rfl
          · rw [getD_set_ne w1.tab i' idx _ hii] at hi'
            exact pathOcc_mono (fun j' => occ_set_some w1.tab j' idx _)
              (hInv1.twf.probe i' s'' hi')
        · show ∃ k, w2.cap = 2 ^ k
          rw [h2cap]
          exact hInv1.cap_pow
        · show WC_MIN_INIT_CAP ≤ w2.cap
          rw [h2cap]
          exact hInv1.cap_min
        · show (w2.len + 1) * 10 < w2.cap * 7 + 10
          rw [h2len, h2cap]
          omega
        · have h1 := hInv1.occ_len
          rw [hdec] at h1
          show (tab_entries (w2.tab.set idx (some (mkSlot w1.seed key 1)))).length = w2.len + 1
          rw [h2tab, hset, h2len]
          simp only [List.length_append, List.length_cons, List.length_nil] at h1 ⊢
          omega
        · have h1 := hInv1.tot_sum
          rw [hdec] at h1
          show ((tab_entries (w2.tab.set idx (some (mkSlot w1.seed key 1)))).map SlotData.cnt).sum = w2.tot + 1
          rw [h2tab, hset, h2tot]
          simp only [List.map_append, List.sum_append, List.map_cons,
            List.sum_cons, List.map_nil, List.sum_nil, hcnt_new] at h1 ⊢
          omega
        · show w2.seed < MASK32
          rw [h2seed]
          exact hInv1.seed_lt
        · show 1 ≤ w2.maxw
          rw [h2maxw]
          exact hInv1.maxw_pos
        · show w2.maxw ≤ WC_MAX_WORD
          rw [h2maxw]
          exact hInv1.maxw_le
        · intro _
          refine ⟨by show w2.tot + 1 = w1.tot + 1; rw [h2tot], ?_, ?_⟩
          · intro k'
            show keyCount (w2.tab.set idx (some (mkSlot w1.seed key 1))) k' = _
            rw [keyCount, keyCount, h2tab, hset, hdec]
            simp only [List.map_append, List.sum_append, List.map_cons,
              List.sum_cons, List.map_nil, List.sum_nil, hkey_new, hcnt_new]
            by_cases hkk : k' = key
            · subst hkk
              simp
              omega
            · rw [if_neg hkk]
              have hne : ¬ key = k' := fun hc => hkk hc.symm
              rw [if_neg hne]
              omega
          · intro k'
            show k' ∈ tab_keys (w2.tab.set idx (some (mkSlot w1.seed key 1))) ↔ _
            rw [tab_keys, tab_keys, h2tab, hset, hdec]
            simp only [List.map_append, List.map_cons, List.map_nil, hkey_new]
            constructor
            · intro hmem
              rcases List.mem_append.mp hmem with hm' | hm'
              · rcases List.mem_append.mp hm' with hm'' | hm''
                · exact Or.inl (List.mem_append.mpr (Or.inl hm''))
                · rcases List.mem_cons.mp hm'' with hm3 | hm3
                  · exact Or.inr hm3
                  · exact absurd hm3 (by simp)
              · exact Or.inl (List.mem_append.mpr (Or.inr hm'))
            · intro hmem
              rcases hmem with hmem | hmem
              · rcases List.mem_append.mp hmem with hm' | hm'
                · exact List.mem_append.mpr
                    (Or.inl (List.mem_append.mpr (Or.inl hm')))
                · exact List.mem_append.mpr (Or.inr hm')
              · subst hmem
                exact List.mem_append.mpr (Or.inl (List.mem_append.mpr
                  (Or.inr (List.mem_cons_self _ _))))

/-- Full effect of `tab_insert` on an invariant-satisfying counter. -/
theorem tab_insert_spec {w : WC} (hInv : Inv w) {key : List Nat} {ok : Bool}
    {w' : WC} (hk1 : 1 ≤ key.length) (hk2 : key.length ≤ w.maxw)
    (hk0 : ∀ b ∈ key, b ≠ 0)
    (hr : tab_insert w key key.length (fnv32 key w.seed) = (ok, w')) :
    Inv w' ∧ w'.seed = w.seed ∧ w'.maxw = w.maxw ∧
      w'.alloc.static_mode = w.alloc.static_mode ∧
      (ok = true → w'.tot = w.tot + 1 ∧
        (∀ k', keyCount w'.tab k' =
          keyCount w.tab k' + (if k' = key then 1 else 0)) ∧
        (∀ k', k' ∈ tab_keys w'.tab ↔ k' ∈ tab_keys w.tab ∨ k' = key)) ∧
      (ok = false → w'.tot = w.tot ∧ w'.len = w.len ∧
        (tab_entries w'.tab).Perm (tab_entries w.tab)) := by
  rw [tab_insert] at hr
  by_cases hth : w.len * 10 ≥ w.cap * 7
  · rw [if_pos hth] at hr
    by_cases hsm : w.alloc.static_mode = true
    · rw [if_pos hsm] at hr
      injection hr with hok hw'
      subst hw'
      rw [← hok]
      exact ⟨hInv, rfl, rfl, rfl, fun hc => Bool.noConfusion hc,
        fun _ => ⟨rfl, rfl, List.Perm.refl _⟩⟩
    · rw [if_neg hsm] at hr
      cases hg : tab_grow w with
      | none =>
        rw [hg] at hr
        injection hr with hok hw'
        subst hw'
        rw [← hok]
        exact ⟨hInv, rfl, rfl, rfl, fun hc => Bool.noConfusion hc,
          fun _ => ⟨rfl, rfl, List.Perm.refl _⟩⟩
      | some w1 =>
        rw [hg] at hr
        obtain ⟨hInv1, hcap1, hstrict1, hperm1, hlen1, htot1, hmaxw1,
          hseed1, hstatic1, _, _, _⟩ := tab_grow_spec hInv hg
        rw [← hseed1] at hr
        have hk2' : key.length ≤ w1.maxw := by rw [hmaxw1]; exact hk2
        obtain ⟨hInv', hseed', hmaxw', hstatic', hok_t, hok_f⟩ :=
          tab_insert_found_spec hInv1 hstrict1 hk1 hk2' hk0 hr
        have hkcnt1 : ∀ k', keyCount w1.tab k' = keyCount w.tab k' :=
          fun k' => (hperm1.map _).sum_eq
        have hkeys1 : ∀ k', k' ∈ tab_keys w1.tab ↔ k' ∈ tab_keys w.tab :=
          fun k' => (hperm1.map SlotData.key).mem_iff
        refine ⟨hInv', by rw [hseed', hseed1], by rw [hmaxw', hmaxw1],
          by rw [hstatic', hstatic1], ?_, ?_⟩
        · intro hok
          obtain ⟨ht, hc, hm⟩ := hok_t hok
          refine ⟨by rw [ht, htot1], ?_, ?_⟩
          · intro k'
            rw [hc k', hkcnt1 k']
          · intro k'
            rw [hm k', hkeys1 k']
        · intro hok
          have hw1 := hok_f hok
          subst hw1
          exact ⟨htot1, hlen1, hperm1⟩
  · rw [if_neg hth] at hr
    have hstrict : w.len * 10 < w.cap * 7 := by omega
    obtain ⟨hInv', hseed', hmaxw', hstatic', hok_t, hok_f⟩ :=
      tab_insert_found_spec hInv hstrict hk1 hk2 hk0 hr
    refine ⟨hInv', hseed', hmaxw', hstatic', hok_t, ?_⟩
    intro hok
    have hw1 := hok_f hok
    subst hw1
    exact ⟨rfl, rfl, List.Perm.refl _⟩

/-! ## Construction lemmas -/

theorem pow2_up_go_spec : ∀ (fuel p c : Nat), (∃ k, p = 2 ^ k) →
    2 ^ 63 ≤ p * 2 ^ fuel →
    (∃ k, pow2_up_go fuel p c = 2 ^ k) ∧
    (c ≤ pow2_up_go fuel p c ∨ 2 ^ 63 ≤ pow2_up_go fuel p c) ∧
    p ≤ pow2_up_go fuel p c := by
  intro fuel
  induction fuel with
  | zero =>
    intro p c hp hge
    simp only [pow2_up_go]
    rw [pow_zero, Nat.mul_one] at hge
    exact ⟨hp, Or.inr hge, le_refl p⟩
  | succ fuel ih =>
    intro p c hp hge
    rw [pow2_up_go]
    by_cases hc : p < c ∧ p ≤ SIZE_MAX / 2
    · rw [if_pos hc]
      obtain ⟨k, hk⟩ := hp
      have heq : p * 2 ^ (fuel + 1) = p * 2 * 2 ^ fuel := by
        rw [pow_succ]; ring
      have hge' : 2 ^ 63 ≤ p * 2 * 2 ^ fuel := by rw [← heq]; exact hge
      have hrec := ih (p * 2) c ⟨k + 1, by rw [hk]; ring⟩ hge'
      exact ⟨hrec.1, hrec.2.1, le_trans (by omega) hrec.2.2⟩
    · rw [if_neg hc]
      refine ⟨hp, ?_, le_refl p⟩
      rw [Classical.not_and_iff_or_not_not] at hc
      rcases hc with hc | hc
      · exact Or.inl (by omega)
      · right
        have : SIZE_MAX / 2 = 2 ^ 63 - 1 := by norm_num [SIZE_MAX]
        omega

theorem pow2_up_spec (c : Nat) :
    (∃ k, pow2_up c = 2 ^ k) ∧ (c ≤ pow2_up c ∨ 2 ^ 63 ≤ pow2_up c) := by
  have h := pow2_up_go_spec 64 1 c ⟨0, rfl⟩ (by norm_num)
  exact ⟨h.1, h.2.1⟩

theorem pow2_up_min (c : Nat) (hc : 16 ≤ c) : 16 ≤ pow2_up c := by
  obtain ⟨_, h⟩ := pow2_up_spec c
  rcases h with h | h
  · omega
  · have : (16 : Nat) ≤ 2 ^ 63 := by norm_num
    omega

theorem tune_params_cap (lim : Option Limits) :
    (∃ k, (tune_params lim).1 = 2 ^ k) ∧
    WC_MIN_INIT_CAP ≤ (tune_params lim).1 := by
  have h1 : (tune_params lim).1 =
      pow2_up (if (tune_st lim).1 < WC_MIN_INIT_CAP then WC_MIN_INIT_CAP
               else (tune_st lim).1) := rfl
  rw [h1]
  refine ⟨(pow2_up_spec _).1, ?_⟩
  show (16 : Nat) ≤ _
  refine pow2_up_min _ ?_
  simp only [WC_MIN_INIT_CAP]
  split <;> omega

theorem mk_seed_lt (hs : Nat) : mk_seed hs < MASK32 := by
  rw [mk_seed]
  split
  · exact Nat.mod_lt _ MASK32_pos
  · exact Nat.mod_lt _ MASK32_pos

/-- The freshly constructed counter state satisfies the invariant. -/
theorem init_inv (cap maxw block_sz seed : Nat) (al : AllocState)
    (hcap_pow : ∃ k, cap = 2 ^ k) (hcap_min : WC_MIN_INIT_CAP ≤ cap)
    (hmw1 : 1 ≤ maxw) (hmw2 : maxw ≤ WC_MAX_WORD) (hseed : seed < MASK32) :
    Inv { tab := List.replicate cap none, cap := cap, len := 0, tot := 0,
          maxw := maxw, arena_rest := [],
          arena_tail := { bcap := block_sz, used := 0 },
          arena_block_sz := block_sz, alloc := al, seed := seed } := by
  refine ⟨⟨?_, ?_, ?_, ?_⟩, hcap_pow, hcap_min, ?_, ?_, ?_, hseed, hmw1, hmw2⟩
  · simp
  · intro s hs
    rw [tab_entries_replicate] at hs
    exact absurd hs (List.not_mem_nil s)
  · rw [tab_entries_replicate]
    exact List.Pairwise.nil
  · intro i s hi
    rw [getD_replicate] at hi
    exact Option.noConfusion hi
  · show (0 : Nat) * 10 < cap * 7 + 10
    omega
  · rw [tab_entries_replicate]
    rfl
  · rw [tab_entries_replicate]
    rfl

set_option maxHeartbeats 2000000 in
/-- Construction delivers an invariant-satisfying, empty counter. -/
theorem open_maxw_bounds (mw : Nat) :
    1 ≤ open_maxw mw ∧ open_maxw mw ≤ WC_MAX_WORD := by
  simp only [open_maxw, DEF_WORD, MIN_WORD, WC_MAX_WORD]
  split_ifs <;> omega

theorem open_seed_lt (lim : Option Limits) : open_seed lim < MASK32 := by
  cases lim with
  | none => exact mk_seed_lt 0
  | some l => exact mk_seed_lt l.hash_seed

theorem wc_open_ex_state {mw : Nat} {lim : Option Limits} {w : WC}
    (h : wc_open_ex mw lim = some w) :
    Inv w ∧ w.len = 0 ∧ w.tot = 0 ∧ tab_entries w.tab = [] := by
  have hcap := tune_params_cap lim
  have hmw := open_maxw_bounds mw
  simp only [wc_open_ex] at h
  repeat' split at h
  all_goals
    first
    | exact Option.noConfusion h
    | (injection h with h
       subst h
       exact ⟨init_inv _ _ _ _ _ hcap.1 hcap.2 hmw.1 hmw.2
         (open_seed_lt lim), rfl, rfl, tab_entries_replicate _⟩)


/-! ## Field preservation through insertion, unconditionally -/

theorem tab_grow_maxw_seed {w w' : WC} (h : tab_grow w = some w') :
    w'.maxw = w.maxw ∧ w'.seed = w.seed := by
  simp only [tab_grow] at h
  split at h
  · exact Option.noConfusion h
  split at h
  · exact Option.noConfusion h
  cases hx : wc_xmalloc w (w.cap * 2 * sizeofSlot) with
  | none => rw [hx] at h; exact Option.noConfusion h
  | some w1 =>
    rw [hx] at h
    cases hr : rehash w.tab (w.cap * 2) with
    | none => rw [hr] at h; exact Option.noConfusion h
    | some ntab =>
      rw [hr] at h
      injection h with h
      subst h
      obtain ⟨-, -, -, -, hm1, hs1, -, -, -, -⟩ := wc_xmalloc_fields hx
      obtain ⟨-, -, -, -, hm2, hs2, -, -, -, -⟩ :=
        wc_xfree_fields { w1 with tab := ntab, cap := w.cap * 2 }
          (w.cap * sizeofSlot)
      exact ⟨hm2.trans hm1, hs2.trans hs1⟩

theorem tab_insert_found_maxw_seed (w : WC) (word : List Nat) (n h : Nat) :
    (tab_insert_found w word n h).2.maxw = w.maxw ∧
    (tab_insert_found w word n h).2.seed = w.seed := by
  rw [tab_insert_found]
  cases hf : tab_find w word n h with
  | none => exact ⟨rfl, rfl⟩
  | some idx =>
    simp only []
    cases hs : w.tab.getD idx none with
    | some s => exact ⟨rfl, rfl⟩
    | none =>
      simp only []
      split
      · exact ⟨rfl, rfl⟩
      cases ha : arena_alloc w (n + 1) with
      | none => exact ⟨rfl, rfl⟩
      | some w2 =>
        obtain ⟨-, -, -, -, hm, hsd, -⟩ := arena_alloc_fields ha
        exact ⟨hm, hsd⟩

theorem tab_insert_maxw_seed (w : WC) (word : List Nat) (n h : Nat) :
    (tab_insert w word n h).2.maxw = w.maxw ∧
    (tab_insert w word n h).2.seed = w.seed := by
  simp only [tab_insert]
  by_cases hth : w.len * 10 ≥ w.cap * 7
  · rw [if_pos hth]
    by_cases hsm : w.alloc.static_mode = true
    · rw [if_pos hsm]
      exact ⟨rfl, rfl⟩
    · rw [if_neg hsm]
      cases hg : tab_grow w with
      | none => exact ⟨rfl, rfl⟩
      | some w1 =>
        obtain ⟨hm1, hs1⟩ := tab_grow_maxw_seed hg
        obtain ⟨hm2, hs2⟩ := tab_insert_found_maxw_seed w1 word n h
        exact ⟨hm2.trans hm1, hs2.trans hs1⟩
  · rw [if_neg hth]
    exact tab_insert_found_maxw_seed w word n h

/-! ## The scan loop is insertion over the extracted token stream -/

theorem scan_go_eq (fuel : Nat) (w : WC) (bs : List Nat) :
    scan_go fuel w bs = insert_tokens w (tokens_go w.maxw w.seed fuel bs) := by
  induction fuel generalizing w bs with
  | zero => rfl
  | succ fuel ih =>
    rw [scan_go, tokens_go]
    cases hbs1 : bs.dropWhile (fun c => !isalpha_ c) with
    | nil => rfl
    | cons c cs =>
      rw [insert_tokens]
      simp only []
      cases hins : tab_insert w
          (((c :: cs).takeWhile isalpha_).foldl (tokStep w.maxw) ([], w.seed)).1
          (((c :: cs).takeWhile isalpha_).foldl
            (tokStep w.maxw) ([], w.seed)).1.length
          (((c :: cs).takeWhile isalpha_).foldl (tokStep w.maxw)
            ([], w.seed)).2 with
      | mk ok w' =>
        cases ok with
        | true =>
          simp only []
          have hfields := tab_insert_maxw_seed w
            (((c :: cs).takeWhile isalpha_).foldl
              (tokStep w.maxw) ([], w.seed)).1
            (((c :: cs).takeWhile isalpha_).foldl
              (tokStep w.maxw) ([], w.seed)).1.length
            (((c :: cs).takeWhile isalpha_).foldl
              (tokStep w.maxw) ([], w.seed)).2
          rw [hins] at hfields
          have h1 : w'.maxw = w.maxw := hfields.1
          have h2 : w'.seed = w.seed := hfields.2
          rw [ih w' ((c :: cs).dropWhile isalpha_), h1, h2]
        | false => rfl

theorem dropWhile_head_false {p : Nat → Bool} {bs : List Nat} {c : Nat}
    {cs : List Nat} (h : bs.dropWhile p = c :: cs) : p c = false := by
  induction bs with
  | nil => exact absurd h (by simp)
  | cons b bs ih =>
    rw [List.dropWhile_cons] at h
    by_cases hb : p b = true
    · rw [if_pos hb] at h
      exact ih h
    · rw [if_neg hb] at h
      injection h with h1 h2
      subst h1
      simpa using hb

theorem token_wf (maxw seed : Nat) (letters : List Nat) (hm : 1 ≤ maxw)
    (hs : seed < MASK32) (hne : letters ≠ []) :
    1 ≤ (letters.foldl (tokStep maxw) ([], seed)).1.length ∧
    (letters.foldl (tokStep maxw) ([], seed)).1.length ≤ maxw ∧
    (∀ b ∈ (letters.foldl (tokStep maxw) ([], seed)).1, b ≠ 0) ∧
    (letters.foldl (tokStep maxw) ([], seed)).2 =
      fnv32 (letters.foldl (tokStep maxw) ([], seed)).1 seed := by
  obtain ⟨h1, h2⟩ := token_spec maxw seed letters hs
  rw [h1, h2]
  cases letters with
  | nil => exact absurd rfl hne
  | cons c cs =>
    refine ⟨?_, ?_, ?_, rfl⟩
    · simp only [List.length_take, List.map_cons, List.length_cons]
      omega
    · simp only [List.length_take]
      omega
    · intro b hb
      have hb2 := List.mem_of_mem_take hb
      obtain ⟨c', -, hc'⟩ := List.mem_map.mp hb2
      intro h0
      rw [← hc'] at h0
      have h5 : (c' ||| 32).testBit 5 = false := by
        rw [h0]
        decide
      rw [Nat.testBit_lor] at h5
      have h32 : (32 : Nat).testBit 5 = true := by decide
      rw [h32, Bool.or_true] at h5
      exact Bool.noConfusion h5

theorem tokens_go_wf (maxw seed fuel : Nat) (bs : List Nat)
    (hm : 1 ≤ maxw) (hs : seed < MASK32) :
    ∀ t ∈ tokens_go maxw seed fuel bs,
      1 ≤ t.1.length ∧ t.1.length ≤ maxw ∧ (∀ b ∈ t.1, b ≠ 0) ∧
      t.2 = fnv32 t.1 seed := by
  induction fuel generalizing bs with
  | zero => intro t ht; exact absurd ht (List.not_mem_nil t)
  | succ fuel ih =>
    rw [tokens_go]
    cases hbs1 : bs.dropWhile (fun c => !isalpha_ c) with
    | nil => intro t ht; exact absurd ht (List.not_mem_nil t)
    | cons c cs =>
      simp only []
      intro t ht
      rcases List.mem_cons.mp ht with h | h
      · have hc : isalpha_ c = true := by
          have := dropWhile_head_false hbs1
          simpa using this
        have hne : (c :: cs).takeWhile isalpha_ ≠ [] := by
          rw [List.takeWhile_cons, if_pos hc]
          simp
        have hw := token_wf maxw seed ((c :: cs).takeWhile isalpha_) hm hs hne
        rw [h]
        exact hw
      · exact ih ((c :: cs).dropWhile isalpha_) t h


/-! ## Invariant preservation through the public API -/

theorem insert_tokens_inv {w : WC} (hInv : Inv w) (ts : List (List Nat × Nat))
    (hts : ∀ t ∈ ts, 1 ≤ t.1.length ∧ t.1.length ≤ w.maxw ∧
      (∀ b ∈ t.1, b ≠ 0) ∧ t.2 = fnv32 t.1 w.seed) :
    Inv (insert_tokens w ts).2 := by
  induction ts generalizing w with
  | nil => exact hInv
  | cons t ts ih =>
    rw [insert_tokens]
    obtain ⟨h1, h2, h3, h4⟩ := hts t (List.mem_cons_self t ts)
    cases hins : tab_insert w t.1 t.1.length t.2 with
    | mk ok w' =>
      rw [h4] at hins
      have hspec := tab_insert_spec hInv h1 h2 h3 hins
      cases ok with
      | true =>
        simp only []
        refine ih hspec.1 ?_
        intro t' ht'
        obtain ⟨g1, g2, g3, g4⟩ := hts t' (List.mem_cons_of_mem t ht')
        rw [hspec.2.2.1, hspec.2.1]
        exact ⟨g1, g2, g3, g4⟩
      | false => exact hspec.1

theorem wc_add_inv {w : WC} (hInv : Inv w) (word : Option (List Nat)) :
    Inv (wc_add w word).2 := by
  rw [wc_add.eq_def]
  cases word with
  | none => exact hInv
  | some bs =>
    simp only []
    by_cases hk : ((bs.takeWhile fun c => c ≠ 0).take w.maxw).length = 0
    · rw [if_pos hk]
      exact hInv
    · rw [if_neg hk]
      have h1 : 1 ≤ ((bs.takeWhile fun c => c ≠ 0).take w.maxw).length := by
        omega
      have h2 : ((bs.takeWhile fun c => c ≠ 0).take w.maxw).length ≤
          w.maxw := by
        simp only [List.length_take]
        omega
      have h3 : ∀ b ∈ (bs.takeWhile fun c => c ≠ 0).take w.maxw, b ≠ 0 := by
        intro b hb
        have := List.mem_takeWhile_imp (List.mem_of_mem_take hb)
        simpa using this
      cases hins : tab_insert w ((bs.takeWhile fun c => c ≠ 0).take w.maxw)
          ((bs.takeWhile fun c => c ≠ 0).take w.maxw).length
          (fnv32 ((bs.takeWhile fun c => c ≠ 0).take w.maxw) w.seed) with
      | mk ok w' =>
        have hspec := tab_insert_spec hInv h1 h2 h3 hins
        cases ok with
        | true => exact hspec.1
        | false => exact hspec.1

theorem wc_scan_inv {w : WC} (hInv : Inv w) (text : Option (List Nat))
    (len : Nat) : Inv (wc_scan w text len).2 := by
  rw [wc_scan.eq_def]
  split
  · exact hInv
  · cases text with
    | none => exact hInv
    | some bs =>
      simp only []
      rw [scan_go_eq]
      exact insert_tokens_inv hInv _
        (tokens_go_wf w.maxw w.seed len (bs.take len) hInv.maxw_pos
          hInv.seed_lt)

/-- Every state reachable through the public API satisfies the
invariant. -/
theorem reach_inv {w : WC} (hr : Reach w) : Inv w := by
  induction hr with
  | open_ex mw lim w h => exact (wc_open_ex_state h).1
  | add w word w' _ heq ih =>
    rw [← heq]
    exact wc_add_inv ih word
  | scan w text len w' _ heq ih =>
    rw [← heq]
    exact wc_scan_inv ih text len


/-! ## Failure decomposition of the insertion loop -/

theorem insert_tokens_nomem {ts : List (List Nat × Nat)} {w w' : WC}
    (h : insert_tokens w ts = (WC_NOMEM, w')) :
    ∃ ts1 t ts2 w1, ts = ts1 ++ t :: ts2 ∧
      insert_tokens w ts1 = (WC_OK, w1) ∧
      tab_insert w1 t.1 t.1.length t.2 = (false, w') := by
  induction ts generalizing w with
  | nil =>
    rw [insert_tokens] at h
    injection h with h1 h2
    exact absurd h1 (by decide)
  | cons t ts ih =>
    rw [insert_tokens] at h
    cases hins : tab_insert w t.1 t.1.length t.2 with
    | mk ok w2 =>
      rw [hins] at h
      cases ok with
      | true =>
        simp only [] at h
        obtain ⟨ts1, t', ts2, w1, hts, hok, hfail⟩ := ih h
        refine ⟨t :: ts1, t', ts2, w1, by rw [hts]; rfl, ?_, hfail⟩
        rw [insert_tokens, hins]
        exact hok
      | false =>
        simp only [] at h
        injection h with h1 h2
        exact ⟨[], t, ts, w, rfl, rfl, by rw [hins, h2]⟩

/-! ## Key-count bookkeeping under the distinct-keys invariant -/

theorem keyCount_perm {t1 t2 : List Slot}
    (h : (tab_entries t1).Perm (tab_entries t2)) (k : List Nat) :
    keyCount t1 k = keyCount t2 k := by
  rw [keyCount, keyCount]
  exact List.Perm.sum_eq (h.map _)

theorem count_sum_single {l : List SlotData}
    (hnd : l.Pairwise fun a b => a.key ≠ b.key) {s : SlotData} (hs : s ∈ l) :
    (l.map fun e => if e.key = s.key then e.cnt else 0).sum = s.cnt := by
  induction l with
  | nil => exact absurd hs (List.not_mem_nil s)
  | cons a l ih =>
    rw [List.pairwise_cons] at hnd
    rw [List.map_cons, List.sum_cons]
    rcases List.mem_cons.mp hs with h | h
    · rw [h, if_pos rfl]
      have hz : (l.map fun e => if e.key = a.key then e.cnt else 0).sum = 0 := by
        apply List.sum_eq_zero
        intro x hx
        obtain ⟨e, he, hex⟩ := List.mem_map.mp hx
        rw [← hex, if_neg]
        intro hek
        exact hnd.1 e he hek.symm
      rw [hz]
      omega
    · rw [if_neg (hnd.1 s h), ih hnd.2 h]
      exact Nat.zero_add _

theorem keyCount_eq_cnt {tab : List Slot}
    (hnd : (tab_entries tab).Pairwise fun a b => a.key ≠ b.key)
    {s : SlotData} (hs : s ∈ tab_entries tab) : keyCount tab s.key = s.cnt :=
  count_sum_single hnd hs

theorem keyCount_pos {tab : List Slot} {k : List Nat}
    (h : 1 ≤ keyCount tab k) : ∃ s ∈ tab_entries tab, s.key = k := by
  by_contra hc
  push_neg at hc
  have hz : keyCount tab k = 0 := by
    rw [keyCount]
    apply List.sum_eq_zero
    intro x hx
    obtain ⟨e, he, hex⟩ := List.mem_map.mp hx
    rw [← hex, if_neg (hc e he)]
  omega

theorem pair_mem_iff {w : WC} (hInv : Inv w) (k : List Nat) (c : Nat) :
    ((k, c) ∈ (tab_entries w.tab).map fun s => (s.key, s.cnt)) ↔
    (keyCount w.tab k = c ∧ 1 ≤ c) := by
  constructor
  · intro h
    obtain ⟨s, hs, hpair⟩ := List.mem_map.mp h
    injection hpair with h1 h2
    subst h1
    subst h2
    exact ⟨keyCount_eq_cnt hInv.twf.nodup hs, (hInv.twf.wf s hs).cnt_pos⟩
  · intro hkc
    obtain ⟨h1, h2⟩ := hkc
    obtain ⟨s, hs, hk⟩ := @keyCount_pos w.tab k (le_of_le_of_eq h2 h1.symm)
    have hcc : keyCount w.tab k = s.cnt := by
      rw [← hk]
      exact keyCount_eq_cnt hInv.twf.nodup hs
    have hsc : s.cnt = c := by omega
    exact List.mem_map.mpr ⟨s, hs, show (s.key, s.cnt) = (k, c) by
      rw [hk, hsc]⟩

theorem pairs_nodup {tab : List Slot}
    (hnd : (tab_entries tab).Pairwise fun a b => a.key ≠ b.key) :
    ((tab_entries tab).map fun s => (s.key, s.cnt)).Nodup := by
  refine List.Pairwise.map _ ?_ hnd
  intro a b hab hpair
  exact hab (congrArg Prod.fst hpair)

theorem pairs_perm_of_keyCount {w1 w2 : WC} (h1 : Inv w1) (h2 : Inv w2)
    (hkc : ∀ k, keyCount w1.tab k = keyCount w2.tab k) :
    ((tab_entries w1.tab).map fun s => (s.key, s.cnt)).Perm
      ((tab_entries w2.tab).map fun s => (s.key, s.cnt)) := by
  rw [List.perm_ext_iff_of_nodup (pairs_nodup h1.twf.nodup)
    (pairs_nodup h2.twf.nodup)]
  intro a
  obtain ⟨k, c⟩ := a
  rw [pair_mem_iff h1, pair_mem_iff h2, hkc]


/-! ## The effect of `wc_add` over a word list -/

theorem wc_add_some_spec (w : WC) (bs : List Nat) :
    (truncKey w.maxw bs = [] ∧ wc_add w (some bs) = (WC_OK, w)) ∨
    (truncKey w.maxw bs ≠ [] ∧
      ∃ ok w1, tab_insert w (truncKey w.maxw bs) (truncKey w.maxw bs).length
          (fnv32 (truncKey w.maxw bs) w.seed) = (ok, w1) ∧
        wc_add w (some bs) = (if ok then WC_OK else WC_NOMEM, w1)) := by
  rw [wc_add.eq_def]
  simp only [truncKey]
  by_cases hk : ((bs.takeWhile fun c => c ≠ 0).take w.maxw).length = 0
  · left
    exact ⟨List.length_eq_zero.mp hk, by rw [if_pos hk]⟩
  · right
    refine ⟨fun hh => hk (by rw [hh]; rfl), ?_⟩
    cases hins : tab_insert w ((bs.takeWhile fun c => c ≠ 0).take w.maxw)
        ((bs.takeWhile fun c => c ≠ 0).take w.maxw).length
        (fnv32 ((bs.takeWhile fun c => c ≠ 0).take w.maxw) w.seed) with
    | mk ok w1 =>
      refine ⟨ok, w1, rfl, ?_⟩
      rw [if_neg hk]
      cases ok with
      | true => rfl
      | false => rfl

theorem truncKey_wf (maxw : Nat) (bs : List Nat) (hne : truncKey maxw bs ≠ []) :
    1 ≤ (truncKey maxw bs).length ∧ (truncKey maxw bs).length ≤ maxw ∧
    ∀ b ∈ truncKey maxw bs, b ≠ 0 := by
  refine ⟨?_, ?_, ?_⟩
  · cases hl : truncKey maxw bs with
    | nil => exact absurd hl hne
    | cons c cs => simp
  · rw [truncKey]
    simp only [List.length_take]
    omega
  · intro b hb
    rw [truncKey] at hb
    have := List.mem_takeWhile_imp (List.mem_of_mem_take hb)
    simpa using this

theorem add_all_spec {ks : List (List Nat)} {w w' : WC} (hInv : Inv w)
    (h : add_all w ks = some w') :
    Inv w' ∧ w'.maxw = w.maxw ∧ w'.seed = w.seed ∧
    ∀ k', k' ≠ [] → keyCount w'.tab k' =
      keyCount w.tab k' + ((ks.map (truncKey w.maxw)).count k') := by
  induction ks generalizing w with
  | nil =>
    rw [add_all] at h
    injection h with h
    subst h
    exact ⟨hInv, rfl, rfl, fun k' _ => by simp⟩
  | cons k ks ih =>
    rw [add_all] at h
    rcases wc_add_some_spec w k with ⟨hk0, hadd⟩ | ⟨hk0, ok, w1, hins, hadd⟩
    · rw [hadd] at h
      simp only [] at h
      obtain ⟨hi, hm, hsd, hkc⟩ := ih hInv h
      refine ⟨hi, hm, hsd, ?_⟩
      intro k' hk'
      rw [hkc k' hk', List.map_cons, hk0, List.count_cons]
      have hne : (([] : List Nat) == k') = false :=
        beq_eq_false_iff_ne.mpr fun hh => hk' hh.symm
      rw [hne, if_neg Bool.false_ne_true]
      omega
    · obtain ⟨hw1, hw2, hw3⟩ := truncKey_wf w.maxw k hk0
      have hspec := tab_insert_spec hInv hw1 hw2 hw3 hins
      rw [hadd] at h
      cases ok with
      | false =>
        simp only [] at h
        exact Option.noConfusion h
      | true =>
        simp only [] at h
        obtain ⟨hi, hm, hsd, hkc⟩ := ih hspec.1 h
        have hbump := hspec.2.2.2.2.1 rfl
        refine ⟨hi, hm.trans hspec.2.2.1, hsd.trans hspec.2.1, ?_⟩
        intro k' hk'
        rw [hspec.2.2.1] at hkc
        rw [hkc k' hk', hbump.2.1 k', List.map_cons, List.count_cons]
        by_cases heq : k' = truncKey w.maxw k
        · rw [if_pos heq]
          have hb : (truncKey w.maxw k == k') = true := by
            rw [heq]
            exact beq_self_eq_true _
          rw [hb, if_pos rfl]
          omega
        · rw [if_neg heq]
          have hb : (truncKey w.maxw k == k') = false :=
            beq_eq_false_iff_ne.mpr fun hh => heq hh.symm
          rw [hb, if_neg Bool.false_ne_true]
          omega


/-! ## `strcmp` order lemmas -/

theorem strcmp_nil_cons_zero (ys z : List Nat) :
    strcmp (0 :: ys) z = strcmp [] z := by
  cases z with
  | nil =>
    rw [strcmp, strcmp]
    split_ifs <;> omega
  | cons c zs =>
    rw [strcmp, strcmp]
    split_ifs <;> omega

theorem strcmp_zero_congr (x : List Nat) : ∀ y z, strcmp x y = 0 →
    strcmp y z = strcmp x z := by
  induction x with
  | nil =>
    intro y z h
    cases y with
    | nil => rfl
    | cons b ys =>
      rw [strcmp] at h
      have hb : b = 0 := by
        by_cases hb : b = 0
        · exact hb
        · rw [if_neg hb] at h
          omega
      subst hb
      exact strcmp_nil_cons_zero ys z
  | cons a xs ih =>
    intro y z h
    cases y with
    | nil =>
      rw [strcmp] at h
      have ha : a = 0 := by
        by_cases ha : a = 0
        · exact ha
        · rw [if_neg ha] at h
          omega
      subst ha
      exact (strcmp_nil_cons_zero xs z).symm
    | cons b ys =>
      rw [strcmp] at h
      by_cases hab : a = b
      · rw [if_pos hab] at h
        by_cases ha : a = 0
        · subst ha
          rw [← hab]
          exact (strcmp_nil_cons_zero ys z).trans
            (strcmp_nil_cons_zero xs z).symm
        · rw [if_neg ha] at h
          cases z with
          | nil =>
            rw [strcmp, strcmp, ← hab]
          | cons c zs =>
            rw [strcmp, strcmp, ← hab]
            by_cases hac : a = c
            · rw [if_pos hac, if_pos hac, if_neg ha, if_neg ha, ih ys zs h]
            · rw [if_neg hac, if_neg hac]
      · rw [if_neg hab] at h
        split_ifs at h <;> omega

theorem strcmp_neg_trans (x : List Nat) : ∀ y z, strcmp x y < 0 →
    strcmp y z < 0 → strcmp x z < 0 := by
  induction x with
  | nil =>
    intro y z hxy hyz
    cases y with
    | nil =>
      rw [strcmp] at hxy
      omega
    | cons b ys =>
      rw [strcmp] at hxy
      by_cases hb : b = 0
      · rw [if_pos hb] at hxy
        omega
      · cases z with
        | nil =>
          rw [strcmp] at hyz
          rw [if_neg hb] at hyz
          omega
        | cons c zs =>
          rw [strcmp] at hyz
          rw [strcmp]
          by_cases hc : c = 0
          · subst hc
            rw [if_neg hb] at hyz
            have hb0 : ¬ b < 0 := by omega
            rw [if_neg hb0] at hyz
            omega
          · rw [if_neg hc]
            omega
  | cons a xs ih =>
    intro y z hxy hyz
    cases y with
    | nil =>
      rw [strcmp] at hxy
      split_ifs at hxy <;> omega
    | cons b ys =>
      rw [strcmp] at hxy
      cases z with
      | nil =>
        rw [strcmp] at hyz
        split_ifs at hyz <;> omega
      | cons c zs =>
        rw [strcmp] at hyz
        rw [strcmp]
        by_cases hab : a = b
        · rw [if_pos hab] at hxy
          by_cases ha : a = 0
          · rw [if_pos ha] at hxy
            omega
          · rw [if_neg ha] at hxy
            by_cases hbc : b = c
            · rw [if_pos hbc] at hyz
              by_cases hb0 : b = 0
              · rw [hab] at ha
                exact absurd hb0 ha
              · rw [if_neg hb0] at hyz
                have hac : a = c := hab.trans hbc
                rw [if_pos hac, if_neg ha]
                exact ih ys zs hxy hyz
            · rw [if_neg hbc] at hyz
              by_cases hbc2 : b < c
              · have hac : ¬ a = c := by omega
                rw [if_neg hac, if_pos (show a < c by omega)]
                omega
              · rw [if_neg hbc2] at hyz
                omega
        · rw [if_neg hab] at hxy
          by_cases hab2 : a < b
          · by_cases hbc : b = c
            · have hac : ¬ a = c := by omega
              rw [if_neg hac, if_pos (show a < c by omega)]
              omega
            · rw [if_neg hbc] at hyz
              by_cases hbc2 : b < c
              · have hac : ¬ a = c := by omega
                rw [if_neg hac, if_pos (show a < c by omega)]
                omega
              · rw [if_neg hbc2] at hyz
                omega
          · rw [if_neg hab2] at hxy
            omega

theorem strcmp_antisym (x : List Nat) : ∀ y, strcmp y x = -strcmp x y := by
  induction x with
  | nil =>
    intro y
    cases y with
    | nil => rfl
    | cons b ys =>
      rw [strcmp, strcmp]
      split_ifs <;> omega
  | cons a xs ih =>
    intro y
    cases y with
    | nil =>
      rw [strcmp, strcmp]
      split_ifs <;> omega
    | cons b ys =>
      rw [strcmp, strcmp]
      by_cases hab : a = b
      · rw [if_pos hab, if_pos hab.symm]
        by_cases ha : a = 0
        · have hb : b = 0 := hab.symm.trans ha
          rw [if_pos hb, if_pos ha]
          omega
        · have hb : ¬ b = 0 := fun hh => ha (hab.trans hh)
          rw [if_neg hb, if_neg ha]
          exact ih ys
      · have hba : ¬ b = a := fun hh => hab hh.symm
        rw [if_neg hba, if_neg hab]
        split_ifs <;> omega

theorem strcmp_le_trans {x y z : List Nat} (h1 : strcmp x y ≤ 0)
    (h2 : strcmp y z ≤ 0) : strcmp x z ≤ 0 := by
  rcases lt_or_eq_of_le h1 with h1' | h1'
  · rcases lt_or_eq_of_le h2 with h2' | h2'
    · exact le_of_lt (strcmp_neg_trans x y z h1' h2')
    · have e1 := strcmp_antisym z y
      have hzy : strcmp z y = 0 := by omega
      have e2 := strcmp_zero_congr z y x hzy
      have e3 := strcmp_antisym x y
      have e4 := strcmp_antisym x z
      omega
  · have := strcmp_zero_congr x y z h1'
    omega

theorem strcmp_eq_zero_keys {a : List Nat} : ∀ {b : List Nat},
    (∀ x ∈ a, x ≠ 0) → (∀ x ∈ b, x ≠ 0) →
    strcmp (a ++ [0]) (b ++ [0]) = 0 → a = b := by
  induction a with
  | nil =>
    intro b ha hb h
    cases b with
    | nil => rfl
    | cons y ys =>
      rw [List.nil_append, List.cons_append] at h
      rw [strcmp] at h
      have hy : y ≠ 0 := hb y (List.mem_cons_self y ys)
      rw [if_neg (fun hh => hy hh.symm), if_pos (by omega : 0 < y)] at h
      omega
  | cons x xs ih =>
    intro b ha hb h
    cases b with
    | nil =>
      rw [List.cons_append, List.nil_append] at h
      rw [strcmp] at h
      have hx : x ≠ 0 := ha x (List.mem_cons_self x xs)
      rw [if_neg hx] at h
      have : ¬ x < 0 := by omega
      rw [if_neg this] at h
      omega
    | cons y ys =>
      rw [List.cons_append, List.cons_append, strcmp] at h
      have hx : x ≠ 0 := ha x (List.mem_cons_self x xs)
      by_cases hxy : x = y
      · rw [if_pos hxy, if_neg hx] at h
        have hxs : xs = ys := ih (fun u hu => ha u (List.mem_cons_of_mem x hu))
          (fun u hu => hb u (List.mem_cons_of_mem y hu)) h
        rw [hxy, hxs]
      · rw [if_neg hxy] at h
        split_ifs at h <;> omega


/-! ## `cmp_words` is a total preorder, strict on distinct keys -/

theorem cmp_words_total (x y : Entry) :
    cmp_words x y ≤ 0 ∨ cmp_words y x ≤ 0 := by
  rw [cmp_words, cmp_words]
  by_cases hc : x.count = y.count
  · rw [if_neg (fun hne => hne hc), if_neg (fun hne => hne hc.symm)]
    have := strcmp_antisym x.word y.word
    omega
  · rw [if_pos hc, if_pos (fun hh => hc hh.symm)]
    split_ifs <;> omega

theorem cmp_words_le_trans {x y z : Entry} (h1 : cmp_words x y ≤ 0)
    (h2 : cmp_words y z ≤ 0) : cmp_words x z ≤ 0 := by
  rw [cmp_words] at h1
  rw [cmp_words] at h2
  rw [cmp_words]
  by_cases hxy : x.count = y.count
  · rw [if_neg (fun hne => hne hxy)] at h1
    by_cases hyz : y.count = z.count
    · rw [if_neg (fun hne => hne hyz)] at h2
      have hxz : x.count = z.count := hxy.trans hyz
      rw [if_neg (fun hne => hne hxz)]
      exact strcmp_le_trans h1 h2
    · rw [if_pos hyz] at h2
      by_cases hgt : y.count > z.count
      · have hxz : x.count ≠ z.count := by omega
        rw [if_pos hxz, if_pos (show x.count > z.count by omega)]
        omega
      · rw [if_neg hgt] at h2
        omega
  · rw [if_pos hxy] at h1
    by_cases hgt : x.count > y.count
    · by_cases hyz : y.count = z.count
      · have hxz : x.count ≠ z.count := by omega
        rw [if_pos hxz, if_pos (show x.count > z.count by omega)]
        omega
      · rw [if_pos hyz] at h2
        by_cases hgt2 : y.count > z.count
        · have hxz : x.count ≠ z.count := by omega
          rw [if_pos hxz, if_pos (show x.count > z.count by omega)]
          omega
        · rw [if_neg hgt2] at h2
          omega
    · rw [if_neg hgt] at h1
      omega

instance : IsTotal Entry fun x y => cmp_words x y ≤ 0 := ⟨cmp_words_total⟩

instance : IsTrans Entry fun x y => cmp_words x y ≤ 0 :=
  ⟨fun _ _ _ => cmp_words_le_trans⟩

theorem resOrder_of_cmpLE {x y : Entry} (h : cmp_words x y ≤ 0)
    (hne : strcmp x.word y.word ≠ 0) : resOrder x y := by
  rw [cmp_words] at h
  rw [resOrder]
  by_cases hc : x.count = y.count
  · rw [if_neg (fun hne2 => hne2 hc)] at h
    right
    exact ⟨hc, lt_of_le_of_ne h hne⟩
  · rw [if_pos hc] at h
    left
    by_cases hgt : x.count > y.count
    · exact hgt
    · rw [if_neg hgt] at h
      omega

theorem resOrder_asymm {x y : Entry} (h1 : resOrder x y)
    (h2 : resOrder y x) : False := by
  rw [resOrder] at h1
  rw [resOrder] at h2
  have := strcmp_antisym x.word y.word
  rcases h1 with h1 | h1 <;> rcases h2 with h2 | h2 <;> omega

instance : IsAntisymm Entry resOrder :=
  ⟨fun _ _ h1 h2 => (resOrder_asymm h1 h2).elim⟩

theorem entries_words_pairwise {w : WC} (hInv : Inv w) :
    ((tab_entries w.tab).map fun s =>
      ({ word := s.word, count := s.cnt } : Entry)).Pairwise
      fun x y => strcmp x.word y.word ≠ 0 := by
  have hp : (tab_entries w.tab).Pairwise
      fun a b => strcmp a.word b.word ≠ 0 := by
    refine hInv.twf.nodup.imp_of_mem ?_
    intro a b ha hb hne heq
    have hwa := (hInv.twf.wf a ha).word_eq
    have hwb := (hInv.twf.wf b hb).word_eq
    have hka := (hInv.twf.wf a ha).key_nonul
    have hkb := (hInv.twf.wf b hb).key_nonul
    rw [hwa, hwb] at heq
    exact hne (strcmp_eq_zero_keys hka hkb heq)
  exact List.Pairwise.map _ (fun _ _ h => h) hp

theorem wc_results_spec {w : WC} (hInv : Inv w) {rc : Nat} {res : List Entry}
    (h : wc_results w = (rc, some res)) :
    rc = WC_OK ∧ res.length = w.len ∧
    res.Perm ((tab_entries w.tab).map fun s =>
      ({ word := s.word, count := s.cnt } : Entry)) ∧
    res.Sorted resOrder ∧
    (∀ l2, res.Perm l2 → l2.Sorted resOrder → l2 = res) := by
  rw [wc_results] at h
  by_cases h0 : w.len = 0
  · rw [if_pos h0] at h
    injection h with h1 h2
    exact Option.noConfusion h2
  · rw [if_neg h0] at h
    by_cases h1 : mul_overflows w.len sizeofWcWord = true
    · rw [if_pos h1] at h
      injection h with hx h2
      exact Option.noConfusion h2
    · rw [if_neg h1] at h
      simp only [] at h
      by_cases h2 : (tab_entries w.tab).length ≠ w.len
      · rw [if_pos h2] at h
        injection h with hx h3
        exact Option.noConfusion h3
      · rw [if_neg h2] at h
        injection h with hrc hres
        injection hres with hres
        have hperm : res.Perm ((tab_entries w.tab).map fun s =>
            ({ word := s.word, count := s.cnt } : Entry)) := by
          rw [← hres]
          exact List.perm_insertionSort _ _
        have hsorted0 : res.Sorted fun x y => cmp_words x y ≤ 0 := by
          rw [← hres]
          exact List.sorted_insertionSort _ _
        have hpw : res.Pairwise fun x y => strcmp x.word y.word ≠ 0 := by
          refine (hperm.pairwise_iff ?_).mpr (entries_words_pairwise hInv)
          intro a b hab h0'
          have := strcmp_antisym a.word b.word
          omega
        have hsorted : res.Sorted resOrder :=
          (List.Pairwise.and hsorted0 hpw).imp fun hh =>
            resOrder_of_cmpLE hh.1 hh.2
        refine ⟨hrc.symm, ?_, hperm, hsorted, ?_⟩
        · rw [← hres, List.length_insertionSort, List.length_map]
          omega
        · intro l2 hp2 hs2
          exact List.eq_of_perm_of_sorted hp2.symm hs2 hsorted

theorem wc_results_empty {w : WC} (h0 : w.len = 0) :
    wc_results w = (WC_OK, none) := by
  rw [wc_results, if_pos h0]


/-! ## Static-mode allocator accounting -/

theorem wc_xmalloc_state_static_spec {st : AllocState} {n : Nat}
    (hsm : st.static_mode = true) {st' : AllocState}
    (h : wc_xmalloc_state st n = some st') :
    st'.bytes_used = st.bytes_used +
      ((WC_ALIGN - st.sbuf_used % WC_ALIGN) % WC_ALIGN + n) ∧
    st'.sbuf_used = st.sbuf_used +
      ((WC_ALIGN - st.sbuf_used % WC_ALIGN) % WC_ALIGN + n) ∧
    st'.static_mode = true ∧ st'.sbuf_size = st.sbuf_size ∧
    st'.bytes_limit = st.bytes_limit ∧
    st'.sbuf_used ≤ st.sbuf_size ∧
    (st.bytes_limit ≠ 0 → st'.bytes_used ≤ st.bytes_limit) ∧
    1 ≤ n := by
  simp only [wc_xmalloc_state, hsm, Bool.not_true] at h
  repeat' split at h
  all_goals try exact Option.noConfusion h
  all_goals try exact Bool.noConfusion (by assumption : false = true)
  injection h with h
  subst h
  rename_i hn hft h1 h2 h3 h4 h5
  simp only [Bool.and_eq_true, decide_eq_true_eq, not_and, not_lt] at h5
  refine ⟨rfl, rfl, rfl, rfl, rfl, ?_, ?_, by omega⟩
  · show st.sbuf_used + ((WC_ALIGN - st.sbuf_used % WC_ALIGN) % WC_ALIGN + n) ≤
      st.sbuf_size
    omega
  · intro hbl
    exact h5 hbl

theorem wc_xmalloc_state_static_fail {st : AllocState} {n : Nat}
    (hsm : st.static_mode = true) (hsz : st.sbuf_size ≤ SIZE_MAX)
    (hcond :
      st.sbuf_used + ((WC_ALIGN - st.sbuf_used % WC_ALIGN) % WC_ALIGN + n) >
        SIZE_MAX ∨
      st.sbuf_used + ((WC_ALIGN - st.sbuf_used % WC_ALIGN) % WC_ALIGN + n) >
        st.sbuf_size ∨
      (st.bytes_limit ≠ 0 ∧
        st.bytes_used + ((WC_ALIGN - st.sbuf_used % WC_ALIGN) % WC_ALIGN + n) >
          st.bytes_limit)) :
    wc_xmalloc_state st n = none := by
  cases hres : wc_xmalloc_state st n with
  | none => rfl
  | some st' =>
    obtain ⟨b1, b2, b3, b4, b5, b6, b7, b8⟩ :=
      wc_xmalloc_state_static_spec hsm hres
    rcases hcond with hc | hc | hc
    · omega
    · omega
    · have := b7 hc.1
      omega

/-! ## More preserved fields and empty-key facts -/

theorem insert_tokens_maxw_seed (w : WC) (ts : List (List Nat × Nat)) :
    (insert_tokens w ts).2.maxw = w.maxw ∧
    (insert_tokens w ts).2.seed = w.seed := by
  induction ts generalizing w with
  | nil => exact ⟨rfl, rfl⟩
  | cons t ts ih =>
    rw [insert_tokens]
    cases hins : tab_insert w t.1 t.1.length t.2 with
    | mk ok w2 =>
      have hf := tab_insert_maxw_seed w t.1 t.1.length t.2
      rw [hins] at hf
      cases ok with
      | true =>
        obtain ⟨hm, hs⟩ := ih w2
        exact ⟨hm.trans hf.1, hs.trans hf.2⟩
      | false => exact ⟨hf.1, hf.2⟩

theorem keyCount_nil {w : WC} (hInv : Inv w) : keyCount w.tab [] = 0 := by
  rw [keyCount]
  apply List.sum_eq_zero
  intro x hx
  obtain ⟨e, he, hex⟩ := List.mem_map.mp hx
  rw [← hex, if_neg]
  intro hk
  have hkl := (hInv.twf.wf e he).key_length
  have hnp := (hInv.twf.wf e he).npos
  rw [hk] at hkl
  simp only [List.length_nil] at hkl
  omega

theorem slot_nul_after_key {seed maxw : Nat} {s : SlotData}
    (wf : SlotWF seed maxw s) : s.word.getD s.n 0 = 0 := by
  conv_lhs => rw [wf.word_eq]
  have hkl : (s.word.take s.n).length = s.n := wf.key_length
  rw [List.getD_append_right _ _ _ _ (by omega), hkl]
  simp


/-! ## The claims -/

/-- C9: a zero-length scan returns `WC_OK` and leaves the counter
unchanged even for a NULL text pointer, and adding the empty string
returns `WC_OK` and leaves the counter unchanged. -/
theorem claim_C9 :
    (∀ w text, wc_scan w text 0 = (WC_OK, w)) ∧
    (∀ w, wc_add w (some []) = (WC_OK, w)) := by
  constructor
  · intro w text
    rw [wc_scan.eq_def, if_pos rfl]
  · intro w
    rw [wc_add.eq_def]
    simp [List.take_nil]

/-- C10: a scan with a NULL text pointer and a strictly positive length
returns `WC_ERROR` and leaves the counter unchanged. -/
theorem claim_C10 (w : WC) (len : Nat) (hlen : 0 < len) :
    wc_scan w none len = (WC_ERROR, w) := by
  rw [wc_scan.eq_def, if_neg (Nat.pos_iff_ne_zero.mp hlen)]

/-- Witness for C10 at a concrete counter and length 1. -/
theorem claim_C10_witness :
    0 < 1 ∧ wc_scan wcJunk none 1 = (WC_ERROR, wcJunk) :=
  ⟨by decide, claim_C10 wcJunk 1 (by decide)⟩

/-- C3: in static mode a successful allocation adds `padding + n` to
both `bytes_used` and the region cursor, where
`padding = (align - used mod align) mod align`, bookkeeping stays
within the region and the byte budget, and the allocation fails
whenever the padded request would overflow `SIZE_MAX`, exceed the
region size, or exceed a nonzero byte budget. -/
theorem claim_C3 {st : AllocState} {n : Nat} (hsm : st.static_mode = true)
    (hsz : st.sbuf_size ≤ SIZE_MAX) :
    (∀ st', wc_xmalloc_state st n = some st' →
      st'.bytes_used = st.bytes_used +
        ((WC_ALIGN - st.sbuf_used % WC_ALIGN) % WC_ALIGN + n) ∧
      st'.sbuf_used = st.sbuf_used +
        ((WC_ALIGN - st.sbuf_used % WC_ALIGN) % WC_ALIGN + n) ∧
      st'.sbuf_used ≤ st.sbuf_size ∧
      (st.bytes_limit ≠ 0 → st'.bytes_used ≤ st.bytes_limit)) ∧
    ((st.sbuf_used + ((WC_ALIGN - st.sbuf_used % WC_ALIGN) % WC_ALIGN + n) >
        SIZE_MAX ∨
      st.sbuf_used + ((WC_ALIGN - st.sbuf_used % WC_ALIGN) % WC_ALIGN + n) >
        st.sbuf_size ∨
      (st.bytes_limit ≠ 0 ∧
        st.bytes_used +
          ((WC_ALIGN - st.sbuf_used % WC_ALIGN) % WC_ALIGN + n) >
          st.bytes_limit)) →
      wc_xmalloc_state st n = none) := by
  constructor
  · intro st' h
    obtain ⟨b1, b2, b3, b4, b5, b6, b7, b8⟩ :=
      wc_xmalloc_state_static_spec hsm h
    exact ⟨b1, b2, b6, b7⟩
  · exact wc_xmalloc_state_static_fail hsm hsz

/-- Witness for C3 at a concrete static allocator state. -/
theorem claim_C3_witness :
    (∀ st', wc_xmalloc_state
        { bytes_used := 0, bytes_limit := 0, static_mode := true,
          sbuf_size := 64, sbuf_used := 1 } 4 = some st' →
      st'.bytes_used = 0 + ((WC_ALIGN - 1 % WC_ALIGN) % WC_ALIGN + 4) ∧
      st'.sbuf_used = 1 + ((WC_ALIGN - 1 % WC_ALIGN) % WC_ALIGN + 4) ∧
      st'.sbuf_used ≤ 64 ∧ ((0 : Nat) ≠ 0 → st'.bytes_used ≤ 0)) ∧
    ((1 + ((WC_ALIGN - 1 % WC_ALIGN) % WC_ALIGN + 4) > SIZE_MAX ∨
      1 + ((WC_ALIGN - 1 % WC_ALIGN) % WC_ALIGN + 4) > 64 ∨
      ((0 : Nat) ≠ 0 ∧ 0 + ((WC_ALIGN - 1 % WC_ALIGN) % WC_ALIGN + 4) > 0)) →
      wc_xmalloc_state
        { bytes_used := 0, bytes_limit := 0, static_mode := true,
          sbuf_size := 64, sbuf_used := 1 } 4 = none) :=
  claim_C3 rfl (by decide)

/-- C4: in every reachable counter state, each occupied slot stores the
reference 32-bit FNV-1a hash of its post-truncation key bytes under the
counter's seed basis, and the byte right after the key is NUL. -/
theorem claim_C4 {w : WC} (hr : Reach w) :
    ∀ s ∈ tab_entries w.tab,
      s.hash = fnv32 (s.word.take s.n) w.seed ∧ s.word.getD s.n 0 = 0 := by
  have hInv := reach_inv hr
  intro s hs
  exact ⟨(hInv.twf.wf s hs).hash_eq, slot_nul_after_key (hInv.twf.wf s hs)⟩

/-- Witness for C4 at the single slot of a concrete reachable counter. -/
theorem claim_C4_witness :
    (mkSlot wOne.seed (bytesOf "hello") 1).hash =
      fnv32 ((mkSlot wOne.seed (bytesOf "hello") 1).word.take
        (mkSlot wOne.seed (bytesOf "hello") 1).n) wOne.seed ∧
    (mkSlot wOne.seed (bytesOf "hello") 1).word.getD
      (mkSlot wOne.seed (bytesOf "hello") 1).n 0 = 0 :=
  claim_C4 (Reach.add wInit (some (bytesOf "hello")) wOne
    (Reach.open_ex 0 (some lim16) wInit rfl) rfl)
    (mkSlot wOne.seed (bytesOf "hello") 1) (by decide)

/-- C2 (amended): in every reachable state the capacity is a power of
two and the load factor satisfies the weakened bound
`unique * 10 < capacity * 7 + 10`; at the growth threshold a
static-mode insert fails with the state unchanged.  The spec's strict
bound `unique * 10 < capacity * 7` is refuted by
`claim_C2_counterexample`. -/
theorem claim_C2 {w : WC} (hr : Reach w) :
    (∃ k, w.cap = 2 ^ k) ∧ w.len * 10 < w.cap * 7 + 10 ∧
    (w.len * 10 ≥ w.cap * 7 → w.alloc.static_mode = true →
      ∀ word n h, tab_insert w word n h = (false, w)) := by
  have hInv := reach_inv hr
  refine ⟨hInv.cap_pow, hInv.load, ?_⟩
  intro hth hsm word n h
  simp only [tab_insert]
  rw [if_pos hth, if_pos hsm]

/-- Counterexample to C2 as stated: twelve successful adds into a
16-slot dynamic table end with `unique * 10 = 120 ≥ 112 = cap * 7`,
violating the strict load bound right after a successful insert. -/
theorem claim_C2_counterexample :
    ((wc_open_ex 0 (some lim16)).bind fun w0 => add_all w0 words12).map
      (fun w => (w.len, w.cap, decide (w.len * 10 < w.cap * 7))) =
    some (12, 16, false) := by decide

/-- Witness for the amended C2 at a concrete reachable counter. -/
theorem claim_C2_witness :
    (∃ k, wInit.cap = 2 ^ k) ∧ wInit.len * 10 < wInit.cap * 7 + 10 ∧
    (wInit.len * 10 ≥ wInit.cap * 7 → wInit.alloc.static_mode = true →
      ∀ word n h, tab_insert wInit word n h = (false, wInit)) :=
  claim_C2 (Reach.open_ex 0 (some lim16) wInit rfl)


set_option maxRecDepth 100000 in
set_option maxHeartbeats 2000000 in
/-- C1: scanning the 27-byte collision input on a default counter
yields total 2 and unique 2 with two distinct entries, the two tokens
have different lengths but identical seeded FNV-1a hashes, and a probe
matches a slot only when the stored hash, the stored length, and the
key bytes all agree. -/
theorem claim_C1 :
    ((wc_open 0).map fun w0 =>
      let r := wc_scan w0 (some collisionInput) 27
      (r.1, r.2.tot, r.2.len,
       (tab_entries r.2.tab).map fun s => (s.key, s.cnt))) =
      some (WC_OK, 2, 2,
        [(bytesOf "svhpy", 1), (bytesOf "znycrycwqhztadbhsrdok", 1)]) ∧
    (bytesOf "svhpy").length ≠ (bytesOf "znycrycwqhztadbhsrdok").length ∧
    fnv32 (bytesOf "svhpy") (mk_seed 0) =
      fnv32 (bytesOf "znycrycwqhztadbhsrdok") (mk_seed 0) ∧
    (∀ s word n h, slotMatches s word n h = true →
      s.n = n ∧ s.hash = h % MASK32 ∧ s.word.take n = word.take n) := by
  refine ⟨by decide, by decide, by decide, ?_⟩
  intro s word n h hm
  rw [slotMatches] at hm
  simp only [Bool.and_eq_true, decide_eq_true_eq] at hm
  exact ⟨hm.1.2, hm.1.1, hm.2⟩

set_option maxRecDepth 100000 in
set_option maxHeartbeats 2000000 in
/-- C8: with `max_word = 8`, scanning the three-word truncation input
of stated length 51 yields total 3 and unique 1 with the single entry
`("internat", 3)`; in general a token buffer holds the lowercased
letters truncated at `max_word` and the hash is taken over exactly
that truncated prefix. -/
theorem claim_C8 :
    ((wc_open_ex 8 none).map fun w0 =>
      let r := wc_scan w0 (some truncInput) 51
      (r.1, r.2.tot, r.2.len,
       (tab_entries r.2.tab).map fun s => (s.key, s.cnt))) =
      some (WC_OK, 3, 1, [(bytesOf "internat", 3)]) ∧
    (∀ (maxw seed : Nat) (letters : List Nat), seed < MASK32 →
      (letters.foldl (tokStep maxw) ([], seed)).1 =
        ((letters.map fun c => c ||| 32).take maxw) ∧
      (letters.foldl (tokStep maxw) ([], seed)).2 =
        fnv32 ((letters.map fun c => c ||| 32).take maxw) seed) := by
  refine ⟨by decide, ?_⟩
  intro maxw seed letters hs
  exact token_spec maxw seed letters hs


/-- C5: a failing insertion leaves total, unique, and the per-key
counts unchanged and `wc_add` reports `WC_NOMEM`; a failing scan
decomposes into a committed prefix of successfully inserted tokens
followed by one failing insertion that itself changes no counts. -/
theorem claim_C5 {w : WC} (hr : Reach w) :
    (∀ bs w', wc_add w (some bs) = (WC_NOMEM, w') →
      w'.tot = w.tot ∧ w'.len = w.len ∧
      ∀ k, keyCount w'.tab k = keyCount w.tab k) ∧
    (∀ bs len w', wc_scan w (some bs) len = (WC_NOMEM, w') →
      ∃ ts1 t ts2 w1,
        tokens_go w.maxw w.seed len (bs.take len) = ts1 ++ t :: ts2 ∧
        insert_tokens w ts1 = (WC_OK, w1) ∧
        tab_insert w1 t.1 t.1.length t.2 = (false, w') ∧
        w'.tot = w1.tot ∧ w'.len = w1.len ∧
        ∀ k, keyCount w'.tab k = keyCount w1.tab k) := by
  have hInv := reach_inv hr
  constructor
  · intro bs w' h
    rcases wc_add_some_spec w bs with ⟨hk0, hadd⟩ | ⟨hk0, ok, w1, hins, hadd⟩
    · rw [hadd] at h
      injection h with h1 h2
      exact absurd h1.symm (by decide)
    · rw [hadd] at h
      cases ok with
      | true =>
        injection h with h1 h2
        exact absurd h1 (by decide)
      | false =>
        injection h with h1 h2
        subst h2
        obtain ⟨hw1, hw2, hw3⟩ := truncKey_wf w.maxw bs hk0
        have hspec := tab_insert_spec hInv hw1 hw2 hw3 hins
        have hfl := hspec.2.2.2.2.2 rfl
        exact ⟨hfl.1, hfl.2.1, fun k => keyCount_perm hfl.2.2 k⟩
  · intro bs len w' h
    rw [wc_scan.eq_def] at h
    by_cases h0 : len = 0
    · rw [if_pos h0] at h
      injection h with h1 h2
      exact absurd h1.symm (by decide)
    · rw [if_neg h0] at h
      simp only [] at h
      rw [scan_go_eq] at h
      obtain ⟨ts1, t, ts2, w1, hts, hok, hfail⟩ := insert_tokens_nomem h
      have htoks := tokens_go_wf w.maxw w.seed len (bs.take len)
        hInv.maxw_pos hInv.seed_lt
      have hts1wf : ∀ t' ∈ ts1, 1 ≤ t'.1.length ∧ t'.1.length ≤ w.maxw ∧
          (∀ b ∈ t'.1, b ≠ 0) ∧ t'.2 = fnv32 t'.1 w.seed := by
        intro t' ht'
        refine htoks t' ?_
        rw [hts]
        exact List.mem_append_left _ ht'
      have hInv1 : Inv w1 := by
        have hh := insert_tokens_inv hInv ts1 hts1wf
        rw [hok] at hh
        exact hh
      have hms := insert_tokens_maxw_seed w ts1
      rw [hok] at hms
      have hm1 : w1.maxw = w.maxw := hms.1
      have hs1 : w1.seed = w.seed := hms.2
      have htwf := htoks t (by
        rw [hts]
        exact List.mem_append_right _ (List.mem_cons_self t ts2))
      have hins' : tab_insert w1 t.1 t.1.length (fnv32 t.1 w1.seed) =
          (false, w') := by
        rw [hs1, ← htwf.2.2.2]
        exact hfail
      have hspec := tab_insert_spec hInv1 htwf.1
        (by rw [hm1]; exact htwf.2.1) htwf.2.2.1 hins'
      have hfl := hspec.2.2.2.2.2 rfl
      exact ⟨ts1, t, ts2, w1, hts, hok, hfail, hfl.1, hfl.2.1,
        fun k => keyCount_perm hfl.2.2 k⟩

/-- Witness for C5 at a concrete reachable counter. -/
theorem claim_C5_witness :
    (∀ bs w', wc_add wInit (some bs) = (WC_NOMEM, w') →
      w'.tot = wInit.tot ∧ w'.len = wInit.len ∧
      ∀ k, keyCount w'.tab k = keyCount wInit.tab k) ∧
    (∀ bs len w', wc_scan wInit (some bs) len = (WC_NOMEM, w') →
      ∃ ts1 t ts2 w1,
        tokens_go wInit.maxw wInit.seed len (bs.take len) =
          ts1 ++ t :: ts2 ∧
        insert_tokens wInit ts1 = (WC_OK, w1) ∧
        tab_insert w1 t.1 t.1.length t.2 = (false, w') ∧
        w'.tot = w1.tot ∧ w'.len = w1.len ∧
        ∀ k, keyCount w'.tab k = keyCount w1.tab k) :=
  claim_C5 (Reach.open_ex 0 (some lim16) wInit rfl)

/-- C6: adding the same multiset of words in any two orders to the same
reachable counter, with all adds succeeding, produces the same unique
and total counters and the same multiset of (key, count) pairs. -/
theorem claim_C6 {w : WC} (hr : Reach w) {ks1 ks2 : List (List Nat)}
    (hperm : ks1.Perm ks2) {w1 w2 : WC}
    (h1 : add_all w ks1 = some w1) (h2 : add_all w ks2 = some w2) :
    w1.len = w2.len ∧ w1.tot = w2.tot ∧
    ((tab_entries w1.tab).map fun s => (s.key, s.cnt)).Perm
      ((tab_entries w2.tab).map fun s => (s.key, s.cnt)) := by
  have hInv := reach_inv hr
  obtain ⟨hi1, hm1, hs1, hkc1⟩ := add_all_spec hInv h1
  obtain ⟨hi2, hm2, hs2, hkc2⟩ := add_all_spec hInv h2
  have hkc : ∀ k, keyCount w1.tab k = keyCount w2.tab k := by
    intro k
    by_cases hk : k = []
    · rw [hk, keyCount_nil hi1, keyCount_nil hi2]
    · rw [hkc1 k hk, hkc2 k hk]
      have hcnt : (ks1.map (truncKey w.maxw)).count k =
          (ks2.map (truncKey w.maxw)).count k :=
        List.Perm.countP_eq _ (hperm.map (truncKey w.maxw))
      omega
  have hpairs := pairs_perm_of_keyCount hi1 hi2 hkc
  refine ⟨?_, ?_, hpairs⟩
  · have hl := hpairs.length_eq
    rw [List.length_map, List.length_map] at hl
    rw [← hi1.occ_len, ← hi2.occ_len]
    exact hl
  · have hsum := (hpairs.map Prod.snd).sum_eq
    rw [List.map_map, List.map_map] at hsum
    rw [← hi1.tot_sum, ← hi2.tot_sum]
    exact hsum

/-- Witness for C6: the two-word lists `wordsAB` and `wordsBA` added to
a concrete reachable counter. -/
theorem claim_C6_witness :
    wAB.len = wBA.len ∧ wAB.tot = wBA.tot ∧
    ((tab_entries wAB.tab).map fun s => (s.key, s.cnt)).Perm
      ((tab_entries wBA.tab).map fun s => (s.key, s.cnt)) :=
  claim_C6 (Reach.open_ex 0 (some lim16) wInit rfl)
    (List.Perm.swap (bytesOf "beta") (bytesOf "alpha") []) rfl rfl

/-- C7: a successful snapshot returns `WC_OK` with exactly `unique`
entries, sorted by count descending with `strcmp` ties ascending; the
sorted order is the unique one on these entries; with `unique = 0` the
snapshot is `WC_OK` with a NULL array. -/
theorem claim_C7 {w : WC} (hr : Reach w) :
    (∀ rc res, wc_results w = (rc, some res) →
      rc = WC_OK ∧ res.length = w.len ∧
      res.Perm ((tab_entries w.tab).map fun s =>
        ({ word := s.word, count := s.cnt } : Entry)) ∧
      res.Sorted resOrder ∧
      (∀ l2, res.Perm l2 → l2.Sorted resOrder → l2 = res)) ∧
    (w.len = 0 → wc_results w = (WC_OK, none)) := by
  have hInv := reach_inv hr
  constructor
  · intro rc res h
    exact wc_results_spec hInv h
  · exact wc_results_empty

/-- Witness for C7 at a concrete reachable two-word counter. -/
theorem claim_C7_witness :
    (∀ rc res, wc_results wAB = (rc, some res) →
      rc = WC_OK ∧ res.length = wAB.len ∧
      res.Perm ((tab_entries wAB.tab).map fun s =>
        ({ word := s.word, count := s.cnt } : Entry)) ∧
      res.Sorted resOrder ∧
      (∀ l2, res.Perm l2 → l2.Sorted resOrder → l2 = res)) ∧
    (wAB.len = 0 → wc_results wAB = (WC_OK, none)) :=
  claim_C7 (Reach.add ((wc_add wInit (some (bytesOf "alpha"))).2)
    (some (bytesOf "beta")) wAB
    (Reach.add wInit (some (bytesOf "alpha"))
      ((wc_add wInit (some (bytesOf "alpha"))).2)
      (Reach.open_ex 0 (some lim16) wInit rfl) rfl) rfl)

end Wordcount
